import Mathlib

/-!
Verification development for the `udig` domain-reconnaissance engine.

Strings manipulated character-wise by the program (domain normalization,
WHOIS parsing, reverse-DNS synthesis) are modelled as `List Char`; strings
that the engine only compares for equality (queue entries, map keys) are
modelled as Lean `String`.  Go's byte-wise operations coincide with the
character-wise model on ASCII data, which is the domain of every operation
modelled here.
-/

set_option autoImplicit false

namespace Udig

/-! ### ASCII case folding

Go's `strings.ToLower` restricted to ASCII coincides with Lean's
`Char.toLower` (both map `'A'..'Z'` to `'a'..'z'` and fix everything else),
so the model uses `Char.toLower` directly. -/

/-- Lower-case a character list, modelling `strings.ToLower` on ASCII data. -/
def lowerStr (s : List Char) : List Char :=
  s.map Char.toLower

/-! ### Trimming, modelling `strings.TrimSuffix` / `strings.TrimPrefix` -/

/-- Model of Go `strings.TrimPrefix`: drop `pre` from the front when present. -/
def trimPre (pre s : List Char) : List Char :=
  if pre.isPrefixOf s then s.drop pre.length else s

/-- Model of Go `strings.TrimSuffix`: drop `suf` from the back when present. -/
def trimSuf (suf s : List Char) : List Char :=
  if suf.isSuffixOf s then s.take (s.length - suf.length) else s

/-- `cleanDomain` from the source: strip one trailing `"."`, one leading
`"*."`, one leading `"www."` (in that order), then lower-case. -/
def cleanDomain (s : List Char) : List Char :=
  lowerStr (trimPre "www.".data (trimPre "*.".data (trimSuf ".".data s)))

/-! Basic facts about `isPrefixOf` / `isSuffixOf` used below. -/

theorem isPrefixOf_iff_exists {α : Type} [DecidableEq α] (p s : List α) :
    p.isPrefixOf s = true ↔ ∃ t, s = p ++ t := by
  induction p generalizing s with
  | nil => simp [List.isPrefixOf]
  | cons a as ih =>
    cases s with
    | nil => simp [List.isPrefixOf]
    | cons b bs =>
      simp only [List.isPrefixOf, Bool.and_eq_true, beq_iff_eq, ih, List.cons_append,
        List.cons.injEq]
      constructor
      · rintro ⟨rfl, t, rfl⟩; exact ⟨t, rfl, rfl⟩
      · rintro ⟨t, rfl, rfl⟩; exact ⟨rfl, t, rfl⟩

theorem isSuffixOf_iff_exists {α : Type} [DecidableEq α] (p s : List α) :
    p.isSuffixOf s = true ↔ ∃ t, s = t ++ p := by
  simp only [List.isSuffixOf, isPrefixOf_iff_exists]
  constructor
  · rintro ⟨t, ht⟩
    refine ⟨t.reverse, ?_⟩
    have := congrArg List.reverse ht
    simpa using this
  · rintro ⟨t, rfl⟩
    exact ⟨t.reverse, by simp⟩

theorem toNat_ofNat_of_lt {n : Nat} (h : n < 55296) : (Char.ofNat n).toNat = n := by
  have hv : n.isValidChar := Or.inl h
  simp [Char.ofNat, hv, Char.ofNatAux, Char.toNat, UInt32.toNat]

theorem toLower_idem (c : Char) : Char.toLower (Char.toLower c) = Char.toLower c := by
  unfold Char.toLower
  by_cases h : 65 ≤ c.toNat ∧ c.toNat ≤ 90
  · simp only [ge_iff_le, h, and_self, if_pos, true_and]
    have h1 : (Char.ofNat (c.toNat + 32)).toNat = c.toNat + 32 :=
      toNat_ofNat_of_lt (by omega)
    rw [if_neg (by omega)]
  · simp [h]

theorem lowerStr_idem (s : List Char) : lowerStr (lowerStr s) = lowerStr s := by
  simp [lowerStr, List.map_map, Function.comp_def, toLower_idem]

theorem lowerStr_append (s t : List Char) :
    lowerStr (s ++ t) = lowerStr s ++ lowerStr t := by
  simp [lowerStr]

theorem isPrefixOf_map_of_isPrefixOf {p s : List Char} (f : Char → Char)
    (h : p.isPrefixOf s = true) : (p.map f).isPrefixOf (s.map f) = true := by
  obtain ⟨t, rfl⟩ := (isPrefixOf_iff_exists p s).mp h
  exact (isPrefixOf_iff_exists _ _).mpr ⟨t.map f, by simp⟩

theorem isSuffixOf_map_of_isSuffixOf {p s : List Char} (f : Char → Char)
    (h : p.isSuffixOf s = true) : (p.map f).isSuffixOf (s.map f) = true := by
  obtain ⟨t, rfl⟩ := (isSuffixOf_iff_exists p s).mp h
  exact (isSuffixOf_iff_exists _ _).mpr ⟨t.map f, by simp⟩

theorem isSuffixOf_append_of_ne_nil {c : Char} {p s : List Char} (hs : s ≠ []) :
    ([c].isSuffixOf (p ++ s) = true) ↔ ([c].isSuffixOf s = true) := by
  rw [isSuffixOf_iff_exists, isSuffixOf_iff_exists]
  constructor
  · rintro ⟨t, ht⟩
    rcases List.eq_nil_or_concat s with rfl | ⟨s', a, rfl⟩
    · exact absurd rfl hs
    refine ⟨s', ?_⟩
    have ha : a = c := by
      have h2 := congrArg (fun l => List.getLast? l) ht
      simpa [List.concat_eq_append] using h2
    rw [ha, List.concat_eq_append]
  · rintro ⟨t, rfl⟩
    exact ⟨p ++ t, by simp⟩

theorem trimPre_of_not {p s : List Char} (h : ¬ p.isPrefixOf s = true) :
    trimPre p s = s := by
  simp [trimPre, h]

theorem trimPre_append (p t : List Char) : trimPre p (p ++ t) = t := by
  have h : p.isPrefixOf (p ++ t) = true := (isPrefixOf_iff_exists _ _).mpr ⟨t, rfl⟩
  simp [trimPre, h]

theorem trimSuf_of_not {p s : List Char} (h : ¬ p.isSuffixOf s = true) :
    trimSuf p s = s := by
  simp [trimSuf, h]

theorem trimSuf_singleton_append (c : Char) (s : List Char) :
    trimSuf [c] (s ++ [c]) = s := by
  have h : [c].isSuffixOf (s ++ [c]) = true := (isSuffixOf_iff_exists _ _).mpr ⟨s, rfl⟩
  have hl : (s ++ [c]).length - [c].length = s.length := by simp
  simp only [trimSuf, h, if_pos, hl, List.take_left]

/-! ### Claim C3: normalization algebra of `cleanDomain` -/

/-- Claim C3, counterexample: `cleanDomain` is not idempotent (one `"www."` is
stripped per application, and a `"www."` exposed by the first pass is stripped
by the second), and none of the three claimed invariances holds for every
string: prepending `"www."` or `"*."` to a string that already starts with the
same marker changes the result, and appending `"."` to a string that already
ends with `"."` does as well. -/
theorem c3_counterexample :
    cleanDomain (cleanDomain "www.www.a".data) ≠ cleanDomain "www.www.a".data ∧
    cleanDomain ("www.".data ++ "www.a".data) ≠ cleanDomain "www.a".data ∧
    cleanDomain ("*.".data ++ "*.a".data) ≠ cleanDomain "*.a".data ∧
    cleanDomain ("a.".data ++ ".".data) ≠ cleanDomain "a.".data := by
  decide

/-- Claim C3 (amended): for every nonempty string `x` whose lower-casing does
not end in `"."` and does not start with `"*."` or `"www."`, `cleanDomain` is
idempotent at `x` and invariant under appending a trailing `"."` and under
prepending `"*."` or `"www."`. -/
theorem c3_cleanDomain_normalized (s : List Char) (hne : s ≠ [])
    (h1 : ¬ ".".data.isSuffixOf (lowerStr s) = true)
    (h2 : ¬ "*.".data.isPrefixOf (lowerStr s) = true)
    (h3 : ¬ "www.".data.isPrefixOf (lowerStr s) = true) :
    cleanDomain (cleanDomain s) = cleanDomain s ∧
    cleanDomain (s ++ ".".data) = cleanDomain s ∧
    cleanDomain ("*.".data ++ s) = cleanDomain s ∧
    cleanDomain ("www.".data ++ s) = cleanDomain s := by
  have hs1 : ¬ ".".data.isSuffixOf s = true := by
    intro h
    exact h1 (by simpa [lowerStr] using isSuffixOf_map_of_isSuffixOf Char.toLower h)
  have hs2 : ¬ "*.".data.isPrefixOf s = true := by
    intro h
    exact h2 (by simpa [lowerStr] using isPrefixOf_map_of_isPrefixOf Char.toLower h)
  have hs3 : ¬ "www.".data.isPrefixOf s = true := by
    intro h
    exact h3 (by simpa [lowerStr] using isPrefixOf_map_of_isPrefixOf Char.toLower h)
  have hclean : cleanDomain s = lowerStr s := by
    unfold cleanDomain
    rw [trimSuf_of_not hs1, trimPre_of_not hs2, trimPre_of_not hs3]
  have hcleanL : cleanDomain (lowerStr s) = lowerStr s := by
    unfold cleanDomain
    rw [trimSuf_of_not h1, trimPre_of_not h2, trimPre_of_not h3, lowerStr_idem]
  refine ⟨by rw [hclean, hcleanL], ?_, ?_, ?_⟩
  · rw [hclean]
    unfold cleanDomain
    have hdot : (".".data : List Char) = ['.'] := rfl
    rw [hdot, trimSuf_singleton_append, trimPre_of_not hs2, trimPre_of_not hs3]
  · have hsuf : ¬ ".".data.isSuffixOf ("*.".data ++ s) = true := by
      rw [show (".".data : List Char) = ['.'] from rfl, isSuffixOf_append_of_ne_nil hne]
      exact hs1
    rw [hclean]
    unfold cleanDomain
    rw [trimSuf_of_not hsuf, trimPre_append, trimPre_of_not hs3]
  · have hsuf : ¬ ".".data.isSuffixOf ("www.".data ++ s) = true := by
      rw [show (".".data : List Char) = ['.'] from rfl, isSuffixOf_append_of_ne_nil hne]
      exact hs1
    have hpre2 : ¬ "*.".data.isPrefixOf ("www.".data ++ s) = true := by
      intro h
      obtain ⟨t, ht⟩ := (isPrefixOf_iff_exists _ _).mp h
      simp [List.cons_eq_cons] at ht
    rw [hclean]
    unfold cleanDomain
    rw [trimSuf_of_not hsuf, trimPre_of_not hpre2, trimPre_append]

/-- Claim C3 witness: the amended normalization laws evaluated at
`"sub.example.com"`. -/
theorem c3_witness :
    cleanDomain (cleanDomain "sub.example.com".data) = cleanDomain "sub.example.com".data ∧
    cleanDomain ("sub.example.com".data ++ ".".data) = cleanDomain "sub.example.com".data ∧
    cleanDomain ("*.".data ++ "sub.example.com".data) = cleanDomain "sub.example.com".data ∧
    cleanDomain ("www.".data ++ "sub.example.com".data) = cleanDomain "sub.example.com".data :=
  c3_cleanDomain_normalized "sub.example.com".data (by decide) (by decide) (by decide)
    (by decide)

/-! ### Splitting on dots

`splitOnDot` models Go `strings.Split(s, ".")` (note `strings.Split("", ".")`
is `[""]`), and `joinDot` models `strings.Join(labels, ".")`. -/

/-- Model of Go `strings.Split(s, ".")`. -/
def splitOnDot : List Char → List (List Char)
  | [] => [[]]
  | c :: rest =>
    let r := splitOnDot rest
    if c = '.' then [] :: r
    else (c :: r.headI) :: r.tail

/-- Model of Go `strings.Join(labels, ".")`. -/
def joinDot : List (List Char) → List Char
  | [] => []
  | [x] => x
  | x :: y :: xs => x ++ '.' :: joinDot (y :: xs)

theorem splitOnDot_ne_nil (s : List Char) : splitOnDot s ≠ [] := by
  cases s with
  | nil => simp [splitOnDot]
  | cons c rest =>
    by_cases h : c = '.' <;> simp [splitOnDot, h]

theorem splitOnDot_no_dot (s : List Char) : ∀ p ∈ splitOnDot s, '.' ∉ p := by
  induction s with
  | nil => simp [splitOnDot]
  | cons c rest ih =>
    rcases hr : splitOnDot rest with _ | ⟨q, qs⟩
    · exact absurd hr (splitOnDot_ne_nil rest)
    by_cases h : c = '.'
    · simp only [splitOnDot, h, if_pos, hr]
      intro p hp
      rcases List.mem_cons.mp hp with hp | hp
      · simp [hp]
      · exact ih p (by rw [hr]; exact hp)
    · simp only [splitOnDot, h, ite_false, hr, List.headI, List.tail]
      intro p hp
      rcases List.mem_cons.mp hp with hp | hp
      · subst hp
        intro hmem
        rcases List.mem_cons.mp hmem with hmem | hmem
        · exact h hmem.symm
        · exact ih q (by rw [hr]; exact List.mem_cons_self q qs) hmem
      · exact ih p (by rw [hr]; exact List.mem_cons_of_mem q hp)


theorem splitOnDot_of_no_dot {s : List Char} (h : '.' ∉ s) : splitOnDot s = [s] := by
  induction s with
  | nil => rfl
  | cons c rest ih =>
    have hc : c ≠ '.' := fun hc => h (by simp [hc])
    have hrest : '.' ∉ rest := fun hm => h (List.mem_cons_of_mem _ hm)
    simp [splitOnDot, hc, ih hrest]

theorem splitOnDot_append_dot {x : List Char} (t : List Char) (h : '.' ∉ x) :
    splitOnDot (x ++ '.' :: t) = x :: splitOnDot t := by
  induction x with
  | nil => simp [splitOnDot]
  | cons c rest ih =>
    have hc : c ≠ '.' := fun hc => h (by simp [hc])
    have hrest : '.' ∉ rest := fun hm => h (List.mem_cons_of_mem _ hm)
    have hne := splitOnDot_ne_nil t
    simp [splitOnDot, hc, ih hrest]

theorem splitOnDot_joinDot {ls : List (List Char)} (hne : ls ≠ [])
    (h : ∀ l ∈ ls, '.' ∉ l) : splitOnDot (joinDot ls) = ls := by
  induction ls with
  | nil => exact absurd rfl hne
  | cons x xs ih =>
    cases xs with
    | nil =>
      simp only [joinDot]
      exact splitOnDot_of_no_dot (h x (List.mem_cons_self x []))
    | cons y ys =>
      have hx : '.' ∉ x := h x (List.mem_cons_self x (y :: ys))
      have hrest : ∀ l ∈ y :: ys, '.' ∉ l := fun l hl => h l (List.mem_cons_of_mem x hl)
      simp only [joinDot, splitOnDot_append_dot _ hx]
      rw [ih (by simp) hrest]

/-- `parentDomainOf` from the source: drop the first label; return `""` when
the input has at most two labels (the crawler does not want a TLD). -/
def parentDomainOf (s : List Char) : List Char :=
  let labels := splitOnDot s
  if labels.length ≤ 2 then [] else joinDot labels.tail

theorem splitOnDot_parentDomainOf {s : List Char}
    (h : ¬ (splitOnDot s).length ≤ 2) :
    splitOnDot (parentDomainOf s) = (splitOnDot s).tail := by
  simp only [parentDomainOf, h, ite_false]
  refine splitOnDot_joinDot ?_ ?_
  · rcases hr : splitOnDot s with _ | ⟨q, qs⟩
    · exact absurd hr (splitOnDot_ne_nil s)
    · rw [hr] at h
      simp only [List.tail]
      intro hnil
      rw [hnil] at h
      simp at h
  · intro l hl
    exact splitOnDot_no_dot s l (List.mem_of_mem_tail hl)

theorem parentDomainOf_labels_lt {s : List Char} (hne : parentDomainOf s ≠ []) :
    (splitOnDot (parentDomainOf s)).length < (splitOnDot s).length := by
  by_cases h : (splitOnDot s).length ≤ 2
  · exact absurd (by simp [parentDomainOf, h]) hne
  · rw [splitOnDot_parentDomainOf h, List.length_tail]
    have := splitOnDot_ne_nil s
    have : 0 < (splitOnDot s).length := List.length_pos.mpr this
    omega

/-! ### `SplitDomainName` and `isDomainRelated`

`splitDomainName` models `dns.SplitDomainName` from `miekg/dns` for names
without escaped dots (the crawler never produces escaped dots): it returns
`none` for the empty name and for the bare root, strips one trailing dot, and
splits the rest on `'.'`. -/

/-- Model of `dns.SplitDomainName` (no escaped-dot support). -/
def splitDomainName (s : List Char) : Option (List (List Char)) :=
  if s = [] then none
  else if s = ['.'] then none
  else some (splitOnDot (trimSuf ['.'] s))

/-- `isDomainRelated` from the source: both domains must have at least two
labels, the second-to-last labels must agree, and in strict mode the last
labels must agree as well. -/
def isDomainRelated (domainA domainB : List Char) (strict : Bool) : Bool :=
  match splitDomainName domainA, splitDomainName domainB with
  | some labelsA, some labelsB =>
    if labelsA.length < 2 ∨ labelsB.length < 2 then false
    else
      let related := labelsA.getD (labelsA.length - 2) [] == labelsB.getD (labelsB.length - 2) []
      if related && strict then
        labelsA.getD (labelsA.length - 1) [] == labelsB.getD (labelsB.length - 1) []
      else related
  | _, _ => false

/-- Claim C6: `isDomainRelated(a, b, strict)` is true exactly when both
domains split into at least two DNS labels with equal second-to-last labels
and, in strict mode, equal last labels; in particular
`isDomainRelated("example.com", "sub.example.net", false)` is true, the
strict variant of the same query is false, and bare TLDs are never related. -/
theorem c6_isDomainRelated_spec :
    (∀ (a b : List Char) (strict : Bool), isDomainRelated a b strict = true ↔
      ∃ la lb, splitDomainName a = some la ∧ splitDomainName b = some lb ∧
        2 ≤ la.length ∧ 2 ≤ lb.length ∧
        la.getD (la.length - 2) [] = lb.getD (lb.length - 2) [] ∧
        (strict = true → la.getD (la.length - 1) [] = lb.getD (lb.length - 1) [])) ∧
    isDomainRelated "example.com".data "sub.example.net".data false = true ∧
    isDomainRelated "example.com".data "sub.example.net".data true = false ∧
    (∀ strict, isDomainRelated "com".data "com".data strict = false) := by
  refine ⟨?_, by decide, by decide, fun strict => by cases strict <;> decide⟩
  intro a b strict
  rcases hsa : splitDomainName a with _ | la
  · simp only [isDomainRelated, hsa]
    simp
  rcases hsb : splitDomainName b with _ | lb
  · simp only [isDomainRelated, hsb]
    simp
  simp only [isDomainRelated, hsa, hsb]
  by_cases hlen : la.length < 2 ∨ lb.length < 2
  · simp only [hlen, if_pos]
    constructor
    · intro h; exact absurd h (by simp)
    · rintro ⟨la', lb', hla', hlb', h2a, h2b, -, -⟩
      cases Option.some.inj hla'
      cases Option.some.inj hlb'
      omega
  · simp only [hlen, ite_false]
    have h2a : 2 ≤ la.length := by omega
    have h2b : 2 ≤ lb.length := by omega
    cases strict with
    | false =>
      simp only [Bool.and_false, Bool.false_eq_true, ite_false, beq_iff_eq]
      constructor
      · intro h
        exact ⟨la, lb, rfl, rfl, h2a, h2b, h, by simp⟩
      · rintro ⟨la', lb', hla', hlb', -, -, h, -⟩
        cases Option.some.inj hla'
        cases Option.some.inj hlb'
        exact h
    | true =>
      by_cases hrel : (la.getD (la.length - 2) [] == lb.getD (lb.length - 2) []) = true
      · simp only [hrel, Bool.true_and, if_pos, beq_iff_eq]
        constructor
        · intro h
          exact ⟨la, lb, rfl, rfl, h2a, h2b, by simpa using hrel, fun _ => h⟩
        · rintro ⟨la', lb', hla', hlb', -, -, -, h⟩
          cases Option.some.inj hla'
          cases Option.some.inj hlb'
          exact h trivial
      · have hrel' : ¬ la.getD (la.length - 2) [] = lb.getD (lb.length - 2) [] := by
          simpa using hrel
        rw [Bool.not_eq_true] at hrel
        simp only [hrel, Bool.false_and, Bool.false_eq_true, ite_false]
        constructor
        · intro h
          exact absurd h (by simp)
        · rintro ⟨la', lb', hla', hlb', -, -, h, -⟩
          cases Option.some.inj hla'
          cases Option.some.inj hlb'
          exact absurd h hrel'

/-- Claim C6 witness: the characterization applied at
`("example.com", "sub.example.net", strict := false)`. -/
theorem c6_witness :
    isDomainRelated "example.com".data "sub.example.net".data false = true ↔
      ∃ la lb, splitDomainName "example.com".data = some la ∧
        splitDomainName "sub.example.net".data = some lb ∧
        2 ≤ la.length ∧ 2 ≤ lb.length ∧
        la.getD (la.length - 2) [] = lb.getD (lb.length - 2) [] ∧
        (false = true → la.getD (la.length - 1) [] = lb.getD (lb.length - 1) []) :=
  c6_isDomainRelated_spec.1 "example.com".data "sub.example.net".data false

/-! ### Reverse-DNS synthesis (`uitoa`, `reverseIPv4`, `reverseIPv6`)

IP addresses are modelled as their `net.IP` byte slices, i.e. lists of bytes
(as `Nat`); a 16-byte slice holds an IPv4 address in the v4-in-v6 form used
by Go's `net` package (octets in bytes 12..15). -/

/-- The `hexDigit` constant from the source. -/
def hexDigit : List Char := "0123456789abcdef".data

/-- The digit loop of `uitoa`: peel decimal digits least-significant first
until the value is below 10, accumulating right-to-left exactly as the Go
loop writes into its buffer. -/
def uitoaLoop (val : Nat) (acc : List Char) : List Char :=
  if 10 ≤ val then
    uitoaLoop (val / 10) (Char.ofNat (48 + (val - val / 10 * 10)) :: acc)
  else Char.ofNat (48 + val) :: acc
termination_by val
decreasing_by exact Nat.div_lt_self (by omega) (by omega)

/-- `uitoa` from the source (carved from `net.dnsclient`): unsigned decimal
conversion with a fast path for zero. -/
def uitoa (val : Nat) : List Char :=
  if val = 0 then "0".data else uitoaLoop val []

/-- Decimal digit characters of `n`, most significant first (specification
side, via `Nat.digits`). -/
def decimalRepr (n : Nat) : List Char :=
  if n = 0 then ['0']
  else ((Nat.digits 10 n).reverse).map (fun d => Char.ofNat (48 + d))

theorem uitoaLoop_eq (n : Nat) (acc : List Char) (hn : 0 < n) :
    uitoaLoop n acc =
      ((Nat.digits 10 n).reverse).map (fun d => Char.ofNat (48 + d)) ++ acc := by
  induction n using Nat.strong_induction_on generalizing acc with
  | _ n ih =>
    rw [uitoaLoop]
    by_cases h : 10 ≤ n
    · have hq : 0 < n / 10 := Nat.div_pos h (by omega)
      have hdig : Nat.digits 10 n = n % 10 :: Nat.digits 10 (n / 10) :=
        Nat.digits_def' (by omega) hn
      have hmod : n - n / 10 * 10 = n % 10 := by omega
      rw [if_pos h, ih (n / 10) (Nat.div_lt_self (by omega) (by omega)) _ hq, hdig, hmod]
      simp
    · have hlt : n < 10 := by omega
      have hdig : Nat.digits 10 n = [n] := Nat.digits_of_lt 10 n (by omega) hlt
      rw [if_neg h, hdig]
      simp

theorem uitoa_eq_decimalRepr (n : Nat) : uitoa n = decimalRepr n := by
  by_cases h : n = 0
  · simp [uitoa, decimalRepr, h]
  · rw [uitoa, if_neg h, decimalRepr, if_neg h,
      uitoaLoop_eq n [] (Nat.pos_of_ne_zero h), List.append_nil]

/-- `reverseIPv4` from the source: the decimal octets at bytes 15, 14, 13, 12
of the 16-byte address, joined by dots. -/
def reverseIPv4 (ip : List Nat) : List Char :=
  uitoa (ip.getD 15 0) ++ ['.'] ++ uitoa (ip.getD 14 0) ++ ['.'] ++
    uitoa (ip.getD 13 0) ++ ['.'] ++ uitoa (ip.getD 12 0)

/-- The 16-byte `net.IP` representation of the IPv4 address `a.b.c.d`
(Go's v4-in-v6 form: ten zero bytes, `0xff 0xff`, then the four octets). -/
def v4To16 (a b c d : Nat) : List Nat :=
  [0, 0, 0, 0, 0, 0, 0, 0, 0, 0, 255, 255, a, b, c, d]

/-- The three characters a single byte contributes inside the `reverseIPv6`
loop: low nibble, dot, high nibble. -/
def nibbleTriple (b : Nat) : List Char :=
  [hexDigit.getD (b &&& 15) ' ', '.', hexDigit.getD (b >>> 4) ' ']

/-- The byte loop of `reverseIPv6`, processing the (reversed) byte list and
emitting a separating dot between bytes. -/
def reverseIPv6Go : List Nat → List Char
  | [] => []
  | [b] => nibbleTriple b
  | b :: b' :: rest => nibbleTriple b ++ '.' :: reverseIPv6Go (b' :: rest)

/-- `reverseIPv6` from the source: iterate bytes from the last to the first. -/
def reverseIPv6 (ip : List Nat) : List Char :=
  reverseIPv6Go ip.reverse

/-- The nibble sequence of an address in address order, most significant
nibble of each byte first (specification side). -/
def ipNibbles (ip : List Nat) : List Nat :=
  ip.flatMap (fun b => [b / 16, b % 16])

theorem byte_and_15 (b : Nat) : b &&& 15 = b % 16 := by
  have h := Nat.and_pow_two_sub_one_eq_mod b 4
  norm_num at h
  exact h

theorem byte_shiftRight_4 (b : Nat) : b >>> 4 = b / 16 := by
  have h := Nat.shiftRight_eq_div_pow b 4
  norm_num at h
  exact h

theorem flatMap_reverse_pairs (l : List Nat) :
    (l.flatMap (fun b => [b / 16, b % 16])).reverse =
      l.reverse.flatMap (fun b => [b % 16, b / 16]) := by
  induction l with
  | nil => rfl
  | cons x xs ih =>
    simp only [List.flatMap_cons, List.reverse_append, List.reverse_cons, ih,
      List.flatMap_append]
    simp

theorem reverseIPv6Go_eq (l : List Nat) :
    reverseIPv6Go l =
      joinDot ((l.flatMap (fun b => [b % 16, b / 16])).map
        (fun n => [hexDigit.getD n ' '])) := by
  induction l with
  | nil => rfl
  | cons x xs ih =>
    cases xs with
    | nil =>
      simp [reverseIPv6Go, nibbleTriple, joinDot, byte_and_15, byte_shiftRight_4]
    | cons y ys =>
      simp only [reverseIPv6Go, nibbleTriple, byte_and_15, byte_shiftRight_4, ih,
        List.flatMap_cons, List.map_append, List.map_cons]
      rfl

/-- Claim C9: `reverseIPv4` on the 16-byte representation of `a.b.c.d`
produces the decimal octets in reverse order `d.c.b.a` (so the synthesized
PTR name is `d.c.b.a.in-addr.arpa`), and `reverseIPv6` produces the 32
hexadecimal nibbles of the address in reverse order joined by dots. -/
theorem c9_reverse_dns (a b c d : Nat)
    (ha : a < 256) (hb : b < 256) (hc : c < 256) (hd : d < 256) :
    reverseIPv4 (v4To16 a b c d) =
      decimalRepr d ++ ['.'] ++ decimalRepr c ++ ['.'] ++
        decimalRepr b ++ ['.'] ++ decimalRepr a ∧
    reverseIPv4 (v4To16 a b c d) ++ ".in-addr.arpa".data =
      decimalRepr d ++ ['.'] ++ decimalRepr c ++ ['.'] ++
        decimalRepr b ++ ['.'] ++ decimalRepr a ++ ".in-addr.arpa".data ∧
    (∀ ip : List Nat, ip.length = 16 →
      reverseIPv6 ip =
        joinDot ((ipNibbles ip).reverse.map (fun n => [hexDigit.getD n ' '])) ∧
      (ipNibbles ip).length = 32) := by
  have h4 : reverseIPv4 (v4To16 a b c d) =
      decimalRepr d ++ ['.'] ++ decimalRepr c ++ ['.'] ++
        decimalRepr b ++ ['.'] ++ decimalRepr a := by
    show uitoa d ++ ['.'] ++ uitoa c ++ ['.'] ++ uitoa b ++ ['.'] ++ uitoa a = _
    rw [uitoa_eq_decimalRepr, uitoa_eq_decimalRepr, uitoa_eq_decimalRepr,
      uitoa_eq_decimalRepr]
  refine ⟨h4, by rw [h4], ?_⟩
  intro ip hlen
  constructor
  · rw [reverseIPv6, reverseIPv6Go_eq, ipNibbles, flatMap_reverse_pairs]
  · rw [ipNibbles, List.length_flatMap]
    have hmap : ip.map (List.length ∘ fun b => [b / 16, b % 16]) = ip.map (fun _ => 2) := by
      simp [Function.comp_def]
    rw [hmap, List.map_const', List.sum_replicate, hlen]
    rfl

/-- Claim C9 witness: the synthesis laws applied at the IPv4 address
`93.184.216.34` (so the PTR name is `34.216.184.93.in-addr.arpa`). -/
theorem c9_witness :
    reverseIPv4 (v4To16 93 184 216 34) =
      decimalRepr 34 ++ ['.'] ++ decimalRepr 216 ++ ['.'] ++
        decimalRepr 184 ++ ['.'] ++ decimalRepr 93 :=
  (c9_reverse_dns 93 184 216 34 (by decide) (by decide) (by decide) (by decide)).1

/-! ### Certificate Transparency: log aggregation (`fetchLogs`)

`CTLog` mirrors the crt.sh record; timestamps and names are strings and the
source compares timestamps with Go's lexicographic string `<`/`>`, modelled
by the lexicographic order on Lean `String`.  The Go map
`aggregatedLogs : map[string]*CTAggregatedLog` is modelled as an association
list in first-insertion order; Go's map iteration order is unspecified, which
affects only the order of the returned slice, never the per-name aggregate
values the claims are about. -/

/-- One crt.sh log record, as in the source `CTLog` struct. -/
structure CTLog where
  id : Int
  issuerName : String
  nameValue : String
  loggedAt : String
  notBefore : String
  notAfter : String
deriving DecidableEq, Repr

/-- One aggregate per distinct `nameValue`, as in the source
`CTAggregatedLog` struct. -/
structure CTAggregatedLog where
  log : CTLog
  firstSeen : String
  lastSeen : String
deriving DecidableEq, Repr

/-- Association-list lookup, modelling `aggregatedLogs[k]`. -/
def lookupAgg (m : List (String × CTAggregatedLog)) (k : String) :
    Option CTAggregatedLog :=
  match m with
  | [] => none
  | kv :: rest => if kv.1 = k then some kv.2 else lookupAgg rest k

/-- The two sequential update branches of `fetchLogs` for an existing
aggregate: widen `firstSeen` downward, and on a strictly later timestamp
raise `lastSeen` and replace the stored log. -/
def updAgg (a : CTAggregatedLog) (lg : CTLog) : CTAggregatedLog :=
  let a1 := if a.firstSeen > lg.loggedAt then { a with firstSeen := lg.loggedAt } else a
  if a1.lastSeen < lg.loggedAt then { a1 with lastSeen := lg.loggedAt, log := lg } else a1

/-- In-place update of the association list at key `k`. -/
def setAgg (m : List (String × CTAggregatedLog)) (k : String)
    (f : CTAggregatedLog → CTAggregatedLog) : List (String × CTAggregatedLog) :=
  m.map (fun kv => if kv.1 = k then (kv.1, f kv.2) else kv)

/-- One iteration of the `fetchLogs` aggregation loop: skip logs strictly
before the `since` date, insert a fresh aggregate on first encounter,
otherwise update the existing aggregate. -/
def ctStep (since : String) (m : List (String × CTAggregatedLog)) (lg : CTLog) :
    List (String × CTAggregatedLog) :=
  if lg.loggedAt < since then m
  else
    match lookupAgg m lg.nameValue with
    | none => m ++ [(lg.nameValue,
        { log := lg, firstSeen := lg.loggedAt, lastSeen := lg.loggedAt })]
    | some _ => setAgg m lg.nameValue (fun a => updAgg a lg)

/-- The aggregation map built by `fetchLogs` over the decoded crt.sh array. -/
def fetchLogsAgg (since : String) (raw : List CTLog) :
    List (String × CTAggregatedLog) :=
  raw.foldl (ctStep since) []

/-- The `logs` slice returned by `fetchLogs`: the values of the aggregation
map. -/
def fetchLogs (since : String) (raw : List CTLog) : List CTAggregatedLog :=
  (fetchLogsAgg since raw).map (fun kv => kv.2)

/-- Specification-side per-key aggregation: fold one group of logs into an
optional aggregate. -/
def aggOne (acc : Option CTAggregatedLog) (lg : CTLog) : Option CTAggregatedLog :=
  match acc with
  | none => some { log := lg, firstSeen := lg.loggedAt, lastSeen := lg.loggedAt }
  | some a => some (updAgg a lg)

/-- The input logs in the `since` window carrying the name `k`, in input
order. -/
def keptGroup (since : String) (k : String) (raw : List CTLog) : List CTLog :=
  raw.filter (fun lg => !decide (lg.loggedAt < since) && (lg.nameValue == k))

/-- Running minimum of a timestamp list (specification side). -/
def foldMin (t0 : String) (ts : List String) : String :=
  ts.foldl min t0

/-- Running maximum of a timestamp list (specification side). -/
def foldMax (t0 : String) (ts : List String) : String :=
  ts.foldl max t0

/-- The log that last strictly raised the running maximum timestamp, together
with that maximum (specification side). -/
def lastRaiser : CTLog → String → List CTLog → CTLog × String
  | cur, curMax, [] => (cur, curMax)
  | cur, curMax, lg :: rest =>
    if curMax < lg.loggedAt then lastRaiser lg lg.loggedAt rest
    else lastRaiser cur curMax rest

theorem lookupAgg_append_single (m : List (String × CTAggregatedLog))
    (k2 : String) (v : CTAggregatedLog) (k : String) :
    lookupAgg (m ++ [(k2, v)]) k =
      match lookupAgg m k with
      | some x => some x
      | none => if k2 = k then some v else none := by
  induction m with
  | nil => rfl
  | cons kv rest ih =>
    simp only [List.cons_append, lookupAgg]
    by_cases h : kv.1 = k
    · simp [h]
    · simp only [h, ite_false]
      exact ih

theorem lookupAgg_setAgg (m : List (String × CTAggregatedLog)) (k2 : String)
    (f : CTAggregatedLog → CTAggregatedLog) (k : String) :
    lookupAgg (setAgg m k2 f) k =
      if k2 = k then Option.map f (lookupAgg m k) else lookupAgg m k := by
  induction m with
  | nil => simp [setAgg, lookupAgg]
  | cons kv rest ih =>
    simp only [setAgg] at ih
    simp only [setAgg, List.map_cons]
    by_cases hk : kv.1 = k2
    · by_cases hkk : kv.1 = k
      · have hk2k : k2 = k := hk.symm.trans hkk
        simp [lookupAgg, hk, hkk, hk2k]
      · have hk2k : ¬ k2 = k := fun h => hkk (hk.trans h)
        simp only [hk, if_pos, lookupAgg, hkk, ite_false, hk2k]
        rw [ih, if_neg hk2k]
    · by_cases hkv : kv.1 = k
      · have hk2k : ¬ k2 = k := fun h => hk (hkv.trans h.symm)
        rw [if_neg hk]
        simp [lookupAgg, hkv, hk2k]
      · rw [if_neg hk]
        simp only [lookupAgg, hkv, ite_false]
        exact ih

theorem lookupAgg_foldl_ctStep (since : String) (raw : List CTLog)
    (m : List (String × CTAggregatedLog)) (k : String) :
    lookupAgg (raw.foldl (ctStep since) m) k =
      (keptGroup since k raw).foldl aggOne (lookupAgg m k) := by
  induction raw generalizing m with
  | nil => rfl
  | cons lg rest ih =>
    simp only [List.foldl_cons, keptGroup, List.filter]
    by_cases hskip : lg.loggedAt < since
    · simp only [ctStep, hskip, if_pos, decide_eq_true hskip, Bool.not_true,
        Bool.false_and]
      exact ih m
    · have hdk : (!decide (lg.loggedAt < since)) = true := by
        simp [hskip]
      by_cases hk : lg.nameValue = k
      · have hcond : (!decide (lg.loggedAt < since) && (lg.nameValue == k)) = true := by
          simp [hskip, hk]
        simp only [hcond]
        rcases hlook : lookupAgg m lg.nameValue with _ | a
        · simp only [ctStep, hskip, ite_false, hlook]
          rw [ih]
          have hnew : lookupAgg (m ++ [(lg.nameValue,
              { log := lg, firstSeen := lg.loggedAt, lastSeen := lg.loggedAt })]) k =
              some { log := lg, firstSeen := lg.loggedAt, lastSeen := lg.loggedAt } := by
            rw [lookupAgg_append_single]
            rw [hk] at hlook
            simp [hlook, hk]
          rw [hnew]
          rw [← hk, hlook]
          rfl
        · simp only [ctStep, hskip, ite_false, hlook]
          rw [ih]
          rw [lookupAgg_setAgg, if_pos hk, ← hk, hlook]
          rfl
      · have hcond : (!decide (lg.loggedAt < since) && (lg.nameValue == k)) = false := by
          simp [hk]
        simp only [hcond]
        rcases hlook : lookupAgg m lg.nameValue with _ | a
        · simp only [ctStep, hskip, ite_false, hlook]
          rw [ih]
          have hsame : lookupAgg (m ++ [(lg.nameValue,
              { log := lg, firstSeen := lg.loggedAt, lastSeen := lg.loggedAt })]) k =
              lookupAgg m k := by
            rw [lookupAgg_append_single]
            rcases lookupAgg m k with _ | x
            · simp [hk]
            · rfl
          rw [hsame]
          rfl
        · simp only [ctStep, hskip, ite_false, hlook]
          rw [ih]
          rw [lookupAgg_setAgg, if_neg hk]
          rfl

theorem foldl_aggOne_some (gs : List CTLog) (a : CTAggregatedLog) :
    gs.foldl aggOne (some a) =
      some { log := (lastRaiser a.log a.lastSeen gs).1,
             firstSeen := foldMin a.firstSeen (gs.map (fun lg => lg.loggedAt)),
             lastSeen := (lastRaiser a.log a.lastSeen gs).2 } := by
  induction gs generalizing a with
  | nil => simp [lastRaiser, foldMin]
  | cons lg rest ih =>
    simp only [List.foldl_cons, aggOne, List.map_cons]
    rw [ih (updAgg a lg)]
    have hfirst : (updAgg a lg).firstSeen = min a.firstSeen lg.loggedAt := by
      simp only [updAgg]
      by_cases h1 : a.firstSeen > lg.loggedAt
      · rw [min_eq_right (le_of_lt h1), if_pos h1]
        by_cases h2 : a.lastSeen < lg.loggedAt <;> simp [h2]
      · rw [min_eq_left (le_of_not_lt h1), if_neg h1]
        by_cases h2 : a.lastSeen < lg.loggedAt <;> simp [h2]
    have hlast : (updAgg a lg).lastSeen =
        (if a.lastSeen < lg.loggedAt then lg.loggedAt else a.lastSeen) := by
      simp only [updAgg]
      by_cases h1 : a.firstSeen > lg.loggedAt <;>
        by_cases h2 : a.lastSeen < lg.loggedAt <;> simp [h1, h2]
    have hlog : (updAgg a lg).log = (if a.lastSeen < lg.loggedAt then lg else a.log) := by
      simp only [updAgg]
      by_cases h1 : a.firstSeen > lg.loggedAt <;>
        by_cases h2 : a.lastSeen < lg.loggedAt <;> simp [h1, h2]
    rw [hfirst, hlast, hlog]
    simp only [lastRaiser, foldMin, List.foldl_cons]
    by_cases h2 : a.lastSeen < lg.loggedAt <;> simp [h2]

theorem foldMin_le_init (t0 : String) (ts : List String) : foldMin t0 ts ≤ t0 := by
  induction ts generalizing t0 with
  | nil => exact le_refl t0
  | cons t rest ih =>
    calc foldMin (min t0 t) rest ≤ min t0 t := ih (min t0 t)
    _ ≤ t0 := min_le_left t0 t

theorem lastRaiser_snd_eq_foldMax (cur : CTLog) (curMax : String) (gs : List CTLog) :
    (lastRaiser cur curMax gs).2 = foldMax curMax (gs.map (fun lg => lg.loggedAt)) := by
  induction gs generalizing cur curMax with
  | nil => rfl
  | cons lg rest ih =>
    simp only [lastRaiser, List.map_cons, foldMax, List.foldl_cons]
    by_cases h : curMax < lg.loggedAt
    · rw [if_pos h, ih]
      rw [max_eq_right (le_of_lt h)]
      rfl
    · rw [if_neg h, ih]
      rw [max_eq_left (le_of_not_lt h)]
      rfl

theorem le_foldMax_init (t0 : String) (ts : List String) : t0 ≤ foldMax t0 ts := by
  induction ts generalizing t0 with
  | nil => exact le_refl t0
  | cons t rest ih =>
    calc t0 ≤ max t0 t := le_max_left t0 t
    _ ≤ foldMax (max t0 t) rest := ih (max t0 t)

theorem lastRaiser_fst_mem (cur : CTLog) (curMax : String) (gs : List CTLog) :
    (lastRaiser cur curMax gs).1 = cur ∨ (lastRaiser cur curMax gs).1 ∈ gs := by
  induction gs generalizing cur curMax with
  | nil => exact Or.inl rfl
  | cons lg rest ih =>
    simp only [lastRaiser]
    by_cases h : curMax < lg.loggedAt
    · rw [if_pos h]
      rcases ih lg lg.loggedAt with h1 | h1
      · exact Or.inr (by rw [h1]; exact List.mem_cons_self lg rest)
      · exact Or.inr (List.mem_cons_of_mem lg h1)
    · rw [if_neg h]
      rcases ih cur curMax with h1 | h1
      · exact Or.inl h1
      · exact Or.inr (List.mem_cons_of_mem lg h1)

theorem lookupAgg_eq_none_iff (m : List (String × CTAggregatedLog)) (k : String) :
    lookupAgg m k = none ↔ k ∉ m.map (fun kv => kv.1) := by
  induction m with
  | nil => simp [lookupAgg]
  | cons kv rest ih =>
    simp only [lookupAgg, List.map_cons, List.mem_cons]
    by_cases h : kv.1 = k
    · simp [h]
    · simp only [h, ite_false, ih]
      constructor
      · intro hn hc
        rcases hc with hc | hc
        · exact h hc.symm
        · exact hn hc
      · intro hn
        exact fun hc => hn (Or.inr hc)

theorem setAgg_keys (m : List (String × CTAggregatedLog)) (k : String)
    (f : CTAggregatedLog → CTAggregatedLog) :
    (setAgg m k f).map (fun kv => kv.1) = m.map (fun kv => kv.1) := by
  induction m with
  | nil => rfl
  | cons kv rest ih =>
    simp only [setAgg, List.map_cons] at ih ⊢
    by_cases h : kv.1 = k
    · rw [if_pos h]
      simp only [List.map_cons, ih]
    · rw [if_neg h]
      simp only [List.map_cons, ih]

theorem ctStep_keys_nodup (since : String) (m : List (String × CTAggregatedLog))
    (lg : CTLog) (h : (m.map (fun kv => kv.1)).Nodup) :
    ((ctStep since m lg).map (fun kv => kv.1)).Nodup := by
  by_cases hskip : lg.loggedAt < since
  · simpa [ctStep, hskip] using h
  · simp only [ctStep, hskip, ite_false]
    rcases hlook : lookupAgg m lg.nameValue with _ | a
    · have hnot := (lookupAgg_eq_none_iff m lg.nameValue).mp hlook
      simp only [List.map_append, List.map_cons, List.map_nil]
      rw [List.nodup_append]
      exact ⟨h, List.nodup_singleton _, by simpa using hnot⟩
    · rw [setAgg_keys]
      exact h

theorem fetchLogsAgg_keys_nodup (since : String) (raw : List CTLog) :
    ((fetchLogsAgg since raw).map (fun kv => kv.1)).Nodup := by
  suffices h : ∀ m : List (String × CTAggregatedLog), (m.map (fun kv => kv.1)).Nodup →
      ((raw.foldl (ctStep since) m).map (fun kv => kv.1)).Nodup by
    exact h [] (by simp)
  induction raw with
  | nil => exact fun m hm => hm
  | cons lg rest ih =>
    intro m hm
    exact ih (ctStep since m lg) (ctStep_keys_nodup since m lg hm)

theorem lookupAgg_of_mem_nodup {m : List (String × CTAggregatedLog)} {k : String}
    {a : CTAggregatedLog} (hnd : (m.map (fun kv => kv.1)).Nodup)
    (hmem : (k, a) ∈ m) : lookupAgg m k = some a := by
  induction m with
  | nil => exact absurd hmem (List.not_mem_nil _)
  | cons kv rest ih =>
    simp only [List.map_cons, List.nodup_cons] at hnd
    rcases List.mem_cons.mp hmem with hmem | hmem
    · rw [← hmem]
      simp [lookupAgg]
    · have hne : ¬ kv.1 = k := by
        intro hk
        exact hnd.1 (by rw [hk]; exact List.mem_map_of_mem (fun kv => kv.1) hmem)
      simp only [lookupAgg, hne, ite_false]
      exact ih hnd.2 hmem

theorem lookupAgg_some_mem {m : List (String × CTAggregatedLog)} {k : String}
    {a : CTAggregatedLog} (h : lookupAgg m k = some a) : (k, a) ∈ m := by
  induction m with
  | nil => simp [lookupAgg] at h
  | cons kv rest ih =>
    by_cases hk : kv.1 = k
    · simp only [lookupAgg, hk, if_pos] at h
      cases Option.some.inj h
      have : (k, kv.2) = kv := by
        rw [← hk]
      rw [this]
      exact List.mem_cons_self kv rest
    · simp only [lookupAgg, hk, ite_false] at h
      exact List.mem_cons_of_mem kv (ih h)

theorem mem_keptGroup {since k : String} {raw : List CTLog} {lg : CTLog} :
    lg ∈ keptGroup since k raw ↔
      lg ∈ raw ∧ ¬ lg.loggedAt < since ∧ lg.nameValue = k := by
  simp only [keptGroup, List.mem_filter, Bool.and_eq_true, Bool.not_eq_true',
    decide_eq_false_iff_not, beq_iff_eq]

theorem lookupAgg_fetchLogsAgg (since : String) (raw : List CTLog) (k : String) :
    lookupAgg (fetchLogsAgg since raw) k = (keptGroup since k raw).foldl aggOne none := by
  rw [fetchLogsAgg, lookupAgg_foldl_ctStep]
  rfl

theorem foldl_aggOne_group (g0 : CTLog) (gs : List CTLog) :
    (g0 :: gs).foldl aggOne none =
      some { log := (lastRaiser g0 g0.loggedAt gs).1,
             firstSeen := foldMin g0.loggedAt (gs.map (fun lg => lg.loggedAt)),
             lastSeen := (lastRaiser g0 g0.loggedAt gs).2 } := by
  simp only [List.foldl_cons, aggOne]
  exact foldl_aggOne_some gs { log := g0, firstSeen := g0.loggedAt, lastSeen := g0.loggedAt }

theorem entry_log_nameValue {since : String} {raw : List CTLog} {k : String}
    {a : CTAggregatedLog} (h : lookupAgg (fetchLogsAgg since raw) k = some a) :
    a.log.nameValue = k := by
  rw [lookupAgg_fetchLogsAgg] at h
  rcases hg : keptGroup since k raw with _ | ⟨g0, gs⟩
  · rw [hg] at h
    simp at h
  · rw [hg, foldl_aggOne_group] at h
    cases Option.some.inj h
    rcases lastRaiser_fst_mem g0 g0.loggedAt gs with hm | hm
    · have : g0 ∈ keptGroup since k raw := by
        rw [hg]; exact List.mem_cons_self g0 gs
      rw [hm]
      exact (mem_keptGroup.mp this).2.2
    · have : (lastRaiser g0 g0.loggedAt gs).1 ∈ keptGroup since k raw := by
        rw [hg]; exact List.mem_cons_of_mem g0 hm
      exact (mem_keptGroup.mp this).2.2

theorem mem_fetchLogs_lookup {since : String} {raw : List CTLog}
    {a : CTAggregatedLog} (ha : a ∈ fetchLogs since raw) :
    lookupAgg (fetchLogsAgg since raw) a.log.nameValue = some a := by
  rcases List.mem_map.mp ha with ⟨kv, hkv, hsnd⟩
  have hpair : (kv.1, a) ∈ fetchLogsAgg since raw := by
    have : (kv.1, a) = kv := by
      rw [← hsnd]
    rw [this]
    exact hkv
  have hlook : lookupAgg (fetchLogsAgg since raw) kv.1 = some a :=
    lookupAgg_of_mem_nodup (fetchLogsAgg_keys_nodup since raw) hpair
  have hname : a.log.nameValue = kv.1 := entry_log_nameValue hlook
  rw [hname]
  exact hlook

/-- Claim C4: `fetchLogs` keeps exactly the logs whose `entry_timestamp` is
not lexicographically less than the `since` date, produces one aggregate per
distinct `name_value` among the kept logs, and for each aggregate `FirstSeen`
is the minimum and `LastSeen` the maximum timestamp of its group (so
`FirstSeen ≤ LastSeen`), while the stored `CTLog` is the log that last
strictly raised the running `LastSeen` (the first log of the group when no
later timestamp appears). -/
theorem c4_fetchLogs_aggregation (since : String) (raw : List CTLog) :
    (∀ a ∈ fetchLogs since raw,
      ∃ g0 gs, keptGroup since a.log.nameValue raw = g0 :: gs ∧
        a.firstSeen = foldMin g0.loggedAt (gs.map (fun lg => lg.loggedAt)) ∧
        a.lastSeen = foldMax g0.loggedAt (gs.map (fun lg => lg.loggedAt)) ∧
        (a.log, a.lastSeen) = lastRaiser g0 g0.loggedAt gs ∧
        a.firstSeen ≤ a.lastSeen) ∧
    (∀ lg ∈ raw, ¬ lg.loggedAt < since →
      ∃ a ∈ fetchLogs since raw, a.log.nameValue = lg.nameValue) ∧
    (∀ a ∈ fetchLogs since raw, ∀ b ∈ fetchLogs since raw,
      a.log.nameValue = b.log.nameValue → a = b) := by
  refine ⟨?_, ?_, ?_⟩
  · intro a ha
    have hlook := mem_fetchLogs_lookup ha
    rw [lookupAgg_fetchLogsAgg] at hlook
    rcases hg : keptGroup since a.log.nameValue raw with _ | ⟨g0, gs⟩
    · rw [hg] at hlook
      simp at hlook
    · rw [hg, foldl_aggOne_group] at hlook
      have hfields := Option.some.inj hlook
      refine ⟨g0, gs, rfl, ?_, ?_, ?_, ?_⟩
      · rw [← hfields]
      · rw [← hfields, ← lastRaiser_snd_eq_foldMax]
      · rw [← hfields]
      · rw [← hfields]
        simp only
        calc foldMin g0.loggedAt (gs.map (fun lg => lg.loggedAt)) ≤ g0.loggedAt :=
              foldMin_le_init _ _
        _ ≤ foldMax g0.loggedAt (gs.map (fun lg => lg.loggedAt)) := le_foldMax_init _ _
        _ = (lastRaiser g0 g0.loggedAt gs).2 := (lastRaiser_snd_eq_foldMax _ _ _).symm
  · intro lg hlg hkeep
    have hmem : lg ∈ keptGroup since lg.nameValue raw :=
      mem_keptGroup.mpr ⟨hlg, hkeep, rfl⟩
    rcases hg : keptGroup since lg.nameValue raw with _ | ⟨g0, gs⟩
    · rw [hg] at hmem
      exact absurd hmem (List.not_mem_nil lg)
    · have hlook : lookupAgg (fetchLogsAgg since raw) lg.nameValue =
          some { log := (lastRaiser g0 g0.loggedAt gs).1,
                 firstSeen := foldMin g0.loggedAt (gs.map (fun l => l.loggedAt)),
                 lastSeen := (lastRaiser g0 g0.loggedAt gs).2 } := by
        rw [lookupAgg_fetchLogsAgg, hg, foldl_aggOne_group]
      refine ⟨_, ?_, entry_log_nameValue hlook⟩
      have hpair := lookupAgg_some_mem hlook
      exact List.mem_map_of_mem (fun kv => kv.2) hpair
  · intro a ha b hb hab
    have hla := mem_fetchLogs_lookup ha
    have hlb := mem_fetchLogs_lookup hb
    rw [hab] at hla
    rw [hla] at hlb
    exact Option.some.inj hlb

/-- Claim C4 witness: two logs sharing `name_value = "example.com"` with
timestamps `2025-01-15` and `2025-02-01` (inside a window starting
`2000-01-01`) are represented by one aggregate with the matching first/last
seen values. -/
theorem c4_witness :
    ∀ a ∈ fetchLogs "2000-01-01"
        [{ id := 1, issuerName := "ca", nameValue := "example.com",
           loggedAt := "2025-01-15", notBefore := "", notAfter := "" },
         { id := 2, issuerName := "ca", nameValue := "example.com",
           loggedAt := "2025-02-01", notBefore := "", notAfter := "" }],
      ∀ b ∈ fetchLogs "2000-01-01"
        [{ id := 1, issuerName := "ca", nameValue := "example.com",
           loggedAt := "2025-01-15", notBefore := "", notAfter := "" },
         { id := 2, issuerName := "ca", nameValue := "example.com",
           loggedAt := "2025-02-01", notBefore := "", notAfter := "" }],
      a.log.nameValue = b.log.nameValue → a = b :=
  (c4_fetchLogs_aggregation "2000-01-01"
    [{ id := 1, issuerName := "ca", nameValue := "example.com",
       loggedAt := "2025-01-15", notBefore := "", notAfter := "" },
     { id := 2, issuerName := "ca", nameValue := "example.com",
       loggedAt := "2025-02-01", notBefore := "", notAfter := "" }]).2.2

/-! ### Certificate Transparency: the resolver cache (`ResolveDomain`)

Domains handled by `parentDomainOf` are character lists; the
`cachedResults : map[string]*CTResolution` map is modelled as a function to
`Option`.  The source's `cacheLookup` checks the exact domain and then walks
`domain = ParentDomainOf(domain)` until the empty string; the initial exact
check is the first loop iteration, so the model is the loop alone.  The walk
is written with explicit fuel; `ctAncestors_stable` shows the chain is
complete once the fuel reaches the label count of the domain, which is how
`ancestorChain` instantiates it. -/

/-- A CT resolution: the query and its aggregated logs. -/
structure CTResolution where
  query : List Char
  logs : List CTAggregatedLog
deriving Repr

/-- The label count of a domain under Go `strings.Split(d, ".")`. -/
def labelCount (d : List Char) : Nat :=
  (splitOnDot d).length

/-- The domains visited by the `cacheLookup` loop: the domain itself and its
iterated `parentDomainOf` ancestors, stopping at the empty string. -/
def ctAncestors : Nat → List Char → List (List Char)
  | 0, _ => []
  | fuel + 1, d => if d = [] then [] else d :: ctAncestors fuel (parentDomainOf d)

/-- The `cacheLookup` loop of the CT resolver. -/
def cacheLookupAux (cache : List Char → Option CTResolution) :
    Nat → List Char → Option CTResolution
  | 0, _ => none
  | fuel + 1, d =>
    if d = [] then none
    else
      match cache d with
      | some r => some r
      | none => cacheLookupAux cache fuel (parentDomainOf d)

/-- The ancestor chain of `d`, with enough fuel to reach the end of the
`parentDomainOf` walk. -/
def ancestorChain (d : List Char) : List (List Char) :=
  ctAncestors (labelCount d) d

/-- `cacheLookup` from the source, at the same fuel as `ancestorChain`. -/
def cacheLookup (cache : List Char → Option CTResolution) (d : List Char) :
    Option CTResolution :=
  cacheLookupAux cache (labelCount d) d

/-- `ResolveDomain` of the CT resolver: on a cache hit return the freshly
built resolution (query set, `Logs` empty) without fetching and without
touching the cache; otherwise fetch, store, and return.  The third component
records whether `fetchLogs` ran. -/
def ctResolveDomain (fetch : List Char → List CTAggregatedLog)
    (cache : List Char → Option CTResolution) (domain : List Char) :
    CTResolution × (List Char → Option CTResolution) × Bool :=
  match cacheLookup cache domain with
  | some _ => ({ query := domain, logs := [] }, cache, false)
  | none =>
    let res : CTResolution := { query := domain, logs := fetch domain }
    (res, fun k => if k = domain then some res else cache k, true)

theorem labelCount_pos (d : List Char) : 0 < labelCount d := by
  rw [labelCount]
  exact List.length_pos.mpr (splitOnDot_ne_nil d)

theorem ctAncestors_nil (fuel : Nat) : ctAncestors fuel [] = [] := by
  cases fuel <;> simp [ctAncestors]

theorem ctAncestors_stable :
    ∀ (n f g : Nat) (d : List Char), labelCount d ≤ n → labelCount d ≤ f →
      labelCount d ≤ g → ctAncestors f d = ctAncestors g d := by
  intro n
  induction n with
  | zero =>
    intro f g d hn _ _
    exact absurd hn (by have := labelCount_pos d; omega)
  | succ n ih =>
    intro f g d hn hf hg
    by_cases hd : d = []
    · subst hd
      rw [ctAncestors_nil, ctAncestors_nil]
    · have hf1 : 1 ≤ f := le_trans (labelCount_pos d) hf
      have hg1 : 1 ≤ g := le_trans (labelCount_pos d) hg
      obtain ⟨f', rfl⟩ : ∃ f', f = f' + 1 := ⟨f - 1, by omega⟩
      obtain ⟨g', rfl⟩ : ∃ g', g = g' + 1 := ⟨g - 1, by omega⟩
      simp only [ctAncestors, hd, ite_false]
      by_cases hp : parentDomainOf d = []
      · rw [hp, ctAncestors_nil, ctAncestors_nil]
      · have hlt : labelCount (parentDomainOf d) < labelCount d :=
          parentDomainOf_labels_lt hp
        exact congrArg (d :: ·) (ih f' g' (parentDomainOf d) (by omega) (by omega) (by omega))

theorem cacheLookupAux_hit (cache : List Char → Option CTResolution) :
    ∀ (fuel : Nat) (d : List Char),
      (∃ a ∈ ctAncestors fuel d, cache a ≠ none) →
      cacheLookupAux cache fuel d ≠ none := by
  intro fuel
  induction fuel with
  | zero =>
    intro d h
    rcases h with ⟨a, ha, -⟩
    exact absurd ha (List.not_mem_nil a)
  | succ fuel ih =>
    intro d h
    rcases h with ⟨a, ha, hcache⟩
    by_cases hd : d = []
    · rw [hd] at ha
      rw [ctAncestors_nil] at ha
      exact absurd ha (List.not_mem_nil a)
    · simp only [ctAncestors, hd, ite_false] at ha
      simp only [cacheLookupAux, hd, ite_false]
      rcases hc : cache d with _ | r
      · rcases List.mem_cons.mp ha with rfl | ha
        · exact absurd hc hcache
        · exact ih (parentDomainOf d) ⟨a, ha, hcache⟩
      · simp

/-- Claim C7: if the CT cache holds an entry for `d` or for any iterated
`parentDomainOf` ancestor of `d`, then `ResolveDomain d` returns a resolution
whose query is `d` with an empty `Logs` list, performs no fetch, and leaves
the cache map unchanged. -/
theorem c7_ct_cache_hit (fetch : List Char → List CTAggregatedLog)
    (cache : List Char → Option CTResolution) (d : List Char)
    (hhit : ∃ a ∈ ancestorChain d, cache a ≠ none) :
    (ctResolveDomain fetch cache d).1.query = d ∧
    (ctResolveDomain fetch cache d).1.logs = [] ∧
    (ctResolveDomain fetch cache d).2.1 = cache ∧
    (ctResolveDomain fetch cache d).2.2 = false := by
  have hlook : cacheLookup cache d ≠ none := cacheLookupAux_hit cache (labelCount d) d hhit
  rcases hc : cacheLookup cache d with _ | r
  · exact absurd hc hlook
  · simp [ctResolveDomain, hc]

/-- Claim C7 witness: a cache holding an entry for the parent domain
`example.com` makes `ResolveDomain "sub.example.com"` return an empty
resolution and leave the cache alone. -/
theorem c7_witness :
    (ctResolveDomain (fun _ => [])
        (fun k => if k = "example.com".data
          then some { query := "example.com".data, logs := [] } else none)
        "sub.example.com".data).1.query = "sub.example.com".data ∧
    (ctResolveDomain (fun _ => [])
        (fun k => if k = "example.com".data
          then some { query := "example.com".data, logs := [] } else none)
        "sub.example.com".data).1.logs = [] ∧
    (ctResolveDomain (fun _ => [])
        (fun k => if k = "example.com".data
          then some { query := "example.com".data, logs := [] } else none)
        "sub.example.com".data).2.1 =
      (fun k => if k = "example.com".data
        then some { query := "example.com".data, logs := [] } else none) ∧
    (ctResolveDomain (fun _ => [])
        (fun k => if k = "example.com".data
          then some { query := "example.com".data, logs := [] } else none)
        "sub.example.com".data).2.2 = false :=
  c7_ct_cache_hit (fun _ => [])
    (fun k => if k = "example.com".data
      then some { query := "example.com".data, logs := [] } else none)
    "sub.example.com".data
    ⟨"example.com".data, by decide, by simp⟩

/-! ### WHOIS response parsing (`parseWhoisResponse`)

The scanner's lines are character lists; key/value pairs are converted to
`String` after trimming (Go compares interned strings).  `WhoisContact`
mirrors the source struct with its eighteen string fields. -/

/-- The cutset of Go `strings.Trim(line, " \n\r\t")`. -/
def wsCutset : List Char := [' ', '\n', '\r', '\t']

/-- Trim cutset characters from the front. -/
def trimLeftWs (s : List Char) : List Char :=
  s.dropWhile (fun c => wsCutset.contains c)

/-- Trim cutset characters from the back. -/
def trimRightWs (s : List Char) : List Char :=
  (s.reverse.dropWhile (fun c => wsCutset.contains c)).reverse

/-- Model of Go `strings.Trim(s, " \n\r\t")`. -/
def trimWs (s : List Char) : List Char :=
  trimLeftWs (trimRightWs s)

/-- `WhoisContact` from the source: eighteen named text fields. -/
structure WhoisContact where
  registryDomainId : String := ""
  registrant : String := ""
  registrantOrganization : String := ""
  registrantStateProvince : String := ""
  registrantCountry : String := ""
  registrar : String := ""
  registrarIanaId : String := ""
  registrarWhoisServer : String := ""
  registrarUrl : String := ""
  creationDate : String := ""
  updatedDate : String := ""
  registered : String := ""
  changed : String := ""
  expire : String := ""
  nsset : String := ""
  contact : String := ""
  name : String := ""
  address : String := ""
deriving DecidableEq, Repr

/-- `IsEmpty` from the source: every field is the empty string. -/
def contactIsEmpty (c : WhoisContact) : Bool :=
  c.registryDomainId == "" &&
    c.registrant == "" &&
    c.registrantOrganization == "" &&
    c.registrantStateProvince == "" &&
    c.registrantCountry == "" &&
    c.registrar == "" &&
    c.registrarIanaId == "" &&
    c.registrarWhoisServer == "" &&
    c.registrarUrl == "" &&
    c.creationDate == "" &&
    c.updatedDate == "" &&
    c.registered == "" &&
    c.changed == "" &&
    c.expire == "" &&
    c.nsset == "" &&
    c.contact == "" &&
    c.name == "" &&
    c.address == ""

/-- `setOrAppendString` from the source: append with a `", "` separator when
the field already has a value. -/
def setOrAppendString (target value : String) : String :=
  if target ≠ "" then target ++ ", " ++ value else value

/-- The fixed recognized key set of the `switch` in `parseWhoisResponse`. -/
def recognizedKeys : List String :=
  ["registry domain id",
   "registrant",
   "registrant organization",
   "registrant state/province",
   "registrant country",
   "registrar",
   "registrar iana id",
   "registrar whois server",
   "registrar url",
   "creation date",
   "updated date",
   "registered",
   "changed",
   "expire",
   "nsset",
   "contact",
   "name",
   "address"]

/-- The `switch key` of `parseWhoisResponse`: update the matching field via
`setOrAppendString`; unrecognized keys leave the contact unchanged. -/
def applyKey (c : WhoisContact) (key value : String) : WhoisContact :=
  if key = "registry domain id" then { c with registryDomainId := setOrAppendString c.registryDomainId value }
  else
  if key = "registrant" then { c with registrant := setOrAppendString c.registrant value }
  else
  if key = "registrant organization" then { c with registrantOrganization := setOrAppendString c.registrantOrganization value }
  else
  if key = "registrant state/province" then { c with registrantStateProvince := setOrAppendString c.registrantStateProvince value }
  else
  if key = "registrant country" then { c with registrantCountry := setOrAppendString c.registrantCountry value }
  else
  if key = "registrar" then { c with registrar := setOrAppendString c.registrar value }
  else
  if key = "registrar iana id" then { c with registrarIanaId := setOrAppendString c.registrarIanaId value }
  else
  if key = "registrar whois server" then { c with registrarWhoisServer := setOrAppendString c.registrarWhoisServer value }
  else
  if key = "registrar url" then { c with registrarUrl := setOrAppendString c.registrarUrl value }
  else
  if key = "creation date" then { c with creationDate := setOrAppendString c.creationDate value }
  else
  if key = "updated date" then { c with updatedDate := setOrAppendString c.updatedDate value }
  else
  if key = "registered" then { c with registered := setOrAppendString c.registered value }
  else
  if key = "changed" then { c with changed := setOrAppendString c.changed value }
  else
  if key = "expire" then { c with expire := setOrAppendString c.expire value }
  else
  if key = "nsset" then { c with nsset := setOrAppendString c.nsset value }
  else
  if key = "contact" then { c with contact := setOrAppendString c.contact value }
  else
  if key = "name" then { c with name := setOrAppendString c.name value }
  else
  if key = "address" then { c with address := setOrAppendString c.address value }
  else c

/-- Field selector by recognized key (specification side). -/
def contactField (c : WhoisContact) (key : String) : String :=
  if key = "registry domain id" then c.registryDomainId
  else
  if key = "registrant" then c.registrant
  else
  if key = "registrant organization" then c.registrantOrganization
  else
  if key = "registrant state/province" then c.registrantStateProvince
  else
  if key = "registrant country" then c.registrantCountry
  else
  if key = "registrar" then c.registrar
  else
  if key = "registrar iana id" then c.registrarIanaId
  else
  if key = "registrar whois server" then c.registrarWhoisServer
  else
  if key = "registrar url" then c.registrarUrl
  else
  if key = "creation date" then c.creationDate
  else
  if key = "updated date" then c.updatedDate
  else
  if key = "registered" then c.registered
  else
  if key = "changed" then c.changed
  else
  if key = "expire" then c.expire
  else
  if key = "nsset" then c.nsset
  else
  if key = "contact" then c.contact
  else
  if key = "name" then c.name
  else
  if key = "address" then c.address
  else ""

/-- Split a line on its first `':'`, modelling `strings.SplitN(line, ":", 2)`
(`none` when the line has no colon, in which case the Go slice has a single
part). -/
def splitFirstColon : List Char → Option (List Char × List Char)
  | [] => none
  | c :: rest =>
    if c = ':' then some ([], rest)
    else (splitFirstColon rest).map (fun kv => (c :: kv.1, kv.2))

/-- The parsing terminator prefix. -/
def whoisTerminator : List Char := ">>> last update of whois database".data

/-- The line loop of `parseWhoisResponse` over the scanner's lines. -/
def parseWhoisLines : List (List Char) → WhoisContact → List WhoisContact → List WhoisContact
  | [], _, acc => acc
  | raw :: rest, contact, acc =>
    let line := lowerStr (trimWs raw)
    if line = [] then
      if contactIsEmpty contact then parseWhoisLines rest contact acc
      else parseWhoisLines rest {} (acc ++ [contact])
    else if line.headI = '%' then parseWhoisLines rest contact acc
    else if whoisTerminator.isPrefixOf line then
      if contactIsEmpty contact then acc else acc ++ [contact]
    else
      match splitFirstColon line with
      | none => parseWhoisLines rest contact acc
      | some kv =>
        let key := (trimWs kv.1).asString
        let value := (trimWs kv.2).asString
        if key = "" ∨ value = "" then parseWhoisLines rest contact acc
        else parseWhoisLines rest (applyKey contact key value) acc

/-- `parseWhoisResponse` from the source, over pre-split scanner lines. -/
def parseWhoisResponse (lines : List (List Char)) : List WhoisContact :=
  parseWhoisLines lines {} []

theorem applyKey_unrecognized (c : WhoisContact) (key value : String)
    (h : key ∉ recognizedKeys) : applyKey c key value = c := by
  simp only [recognizedKeys, List.mem_cons, List.not_mem_nil, or_false, not_or] at h
  obtain ⟨h1, h2, h3, h4, h5, h6, h7, h8, h9, h10, h11, h12, h13, h14, h15, h16, h17, h18⟩ := h
  simp [applyKey, h1, h2, h3, h4, h5, h6, h7, h8, h9, h10, h11, h12, h13, h14, h15, h16, h17, h18]

theorem applyKey_recognized (c : WhoisContact) (value : String) :
    ∀ key ∈ recognizedKeys,
      contactField (applyKey c key value) key =
        setOrAppendString (contactField c key) value := by
  intro key hkey
  fin_cases hkey <;> simp [applyKey, contactField]

/-- Claim C5: `parseWhoisResponse` works line by line on the trimmed,
lower-cased form of each line; a blank line finalizes the current contact
exactly when it is non-empty; `%` lines are skipped; a line starting with
`>>> last update of whois database` finalizes the current non-empty contact
and stops all parsing; any other line is split on its first `:` and is
discarded when it has no colon, an empty key or value, or an unrecognized
key; a repeated recognized key appends the new value to the field with a
`", "` separator. -/
theorem c5_parseWhois_line_behavior :
    (∀ (raw raw' : List Char) (rest : List (List Char)) (c : WhoisContact)
        (acc : List WhoisContact),
      lowerStr (trimWs raw) = lowerStr (trimWs raw') →
      parseWhoisLines (raw :: rest) c acc = parseWhoisLines (raw' :: rest) c acc) ∧
    (∀ raw rest c acc, lowerStr (trimWs raw) = [] →
      parseWhoisLines (raw :: rest) c acc =
        if contactIsEmpty c then parseWhoisLines rest c acc
        else parseWhoisLines rest {} (acc ++ [c])) ∧
    (∀ raw rest c acc t, lowerStr (trimWs raw) = '%' :: t →
      parseWhoisLines (raw :: rest) c acc = parseWhoisLines rest c acc) ∧
    (∀ raw rest c acc,
      whoisTerminator.isPrefixOf (lowerStr (trimWs raw)) = true →
      parseWhoisLines (raw :: rest) c acc =
        (if contactIsEmpty c then acc else acc ++ [c])) ∧
    (∀ raw rest c acc, lowerStr (trimWs raw) ≠ [] →
      (lowerStr (trimWs raw)).headI ≠ '%' →
      ¬ whoisTerminator.isPrefixOf (lowerStr (trimWs raw)) = true →
      (splitFirstColon (lowerStr (trimWs raw)) = none ∨
        ∃ k0 v0, splitFirstColon (lowerStr (trimWs raw)) = some (k0, v0) ∧
          ((trimWs k0).asString = "" ∨ (trimWs v0).asString = "" ∨
            (trimWs k0).asString ∉ recognizedKeys)) →
      parseWhoisLines (raw :: rest) c acc = parseWhoisLines rest c acc) ∧
    (∀ raw rest c acc k0 v0, lowerStr (trimWs raw) ≠ [] →
      (lowerStr (trimWs raw)).headI ≠ '%' →
      ¬ whoisTerminator.isPrefixOf (lowerStr (trimWs raw)) = true →
      splitFirstColon (lowerStr (trimWs raw)) = some (k0, v0) →
      (trimWs k0).asString ≠ "" → (trimWs v0).asString ≠ "" →
      parseWhoisLines (raw :: rest) c acc =
        parseWhoisLines rest
          (applyKey c ((trimWs k0).asString) ((trimWs v0).asString)) acc) ∧
    (∀ (c : WhoisContact) (value : String), ∀ key ∈ recognizedKeys,
      contactField (applyKey c key value) key =
        setOrAppendString (contactField c key) value ∧
      (contactField c key ≠ "" →
        contactField (applyKey c key value) key =
          contactField c key ++ ", " ++ value)) := by
  refine ⟨?_, ?_, ?_, ?_, ?_, ?_, ?_⟩
  · intro raw raw' rest c acc h
    simp only [parseWhoisLines]
    rw [h]
  · intro raw rest c acc h
    simp only [parseWhoisLines]
    rw [h, if_pos rfl]
  · intro raw rest c acc t h
    simp only [parseWhoisLines]
    rw [h, if_neg (List.cons_ne_nil '%' t),
      if_pos (show ('%' :: t).headI = '%' from rfl)]
  · intro raw rest c acc h
    obtain ⟨t, hline⟩ := (isPrefixOf_iff_exists _ _).mp h
    simp only [parseWhoisLines]
    rw [hline]
    rw [if_neg (by simp [whoisTerminator]), if_neg (by simp [whoisTerminator, List.headI]),
      if_pos ((isPrefixOf_iff_exists _ _).mpr ⟨t, rfl⟩)]
  · intro raw rest c acc hne hpct hterm hcase
    simp only [parseWhoisLines]
    rw [if_neg hne, if_neg hpct, if_neg hterm]
    rcases hcase with hnone | ⟨k0, v0, hsplit, hbad⟩
    · rw [hnone]
    · rw [hsplit]
      simp only
      by_cases hkv : (trimWs k0).asString = "" ∨ (trimWs v0).asString = ""
      · rw [if_pos hkv]
      · rw [if_neg hkv]
        rcases hbad with hk | hv | hunrec
        · exact absurd (Or.inl hk) hkv
        · exact absurd (Or.inr hv) hkv
        · rw [applyKey_unrecognized c _ _ hunrec]
  · intro raw rest c acc k0 v0 hne hpct hterm hsplit hk hv
    simp only [parseWhoisLines]
    rw [if_neg hne, if_neg hpct, if_neg hterm, hsplit]
    simp only
    rw [if_neg (by push_neg; exact ⟨hk, hv⟩)]
  · intro c value key hkey
    refine ⟨applyKey_recognized c value key hkey, ?_⟩
    intro hne
    rw [applyKey_recognized c value key hkey, setOrAppendString, if_pos hne]

/-- Claim C5 witness: the recognized line `"registrant: Acme Inc"` updates
the `registrant` field of the current contact (the value is lower-cased along
with the whole line). -/
theorem c5_witness :
    parseWhoisLines ["registrant: Acme Inc".data] {} [] =
      parseWhoisLines []
        (applyKey {} ((trimWs "registrant".data).asString)
          ((trimWs " acme inc".data).asString)) [] :=
  c5_parseWhois_line_behavior.2.2.2.2.2.1 "registrant: Acme Inc".data [] {} []
    "registrant".data " acme inc".data (by decide) (by decide) (by decide)
    (by decide) (by decide) (by decide)

/-! ### The crawl engine (`udig.go`)

The engine state carries the two queues (channel buffers, FIFO) and the
`processed` / `seen` sets (Go `map[string]bool`, modelled as membership
lists).  `resolveOneDomain` fans out to all registered domain resolvers and
joins them; the per-resolver network work is abstracted as a probe function
`String → List ResolutionR` returning the joined results in channel-arrival
order, over which all theorems quantify.  The `for len(queue) > 0` loops are
written with explicit fuel: a run whose queue drains within the fuel is
exactly a terminating run of the Go loop. -/

/-- The resolution types of `api.go`. -/
inductive ResolutionType
  | DNS
  | PTR
  | WHOIS
  | TLS
  | HTTP
  | CT
  | BGP
  | GEO
deriving DecidableEq, Repr

/-- One answer record of a DNS resolution, reduced to what the engine
inspects: the RR type and, when the record is a CNAME, its `Target`. -/
structure DNSRecordPair where
  rrtype : Nat
  cnameTarget : String
deriving DecidableEq, Repr

/-- `dns.TypeCNAME`. -/
def typeCNAME : Nat := 5

/-- A resolution as the engine sees it through the `Resolution` interface:
type, query, `Records` (meaningful for DNS), and the `Domains()` / `IPs()`
views. -/
structure ResolutionR where
  rtype : ResolutionType
  query : String
  records : List DNSRecordPair
  domains : List String
  ips : List String
deriving DecidableEq, Repr

/-- The engine state owned by one crawl session. -/
structure EngineState where
  domainQueue : List String
  ipQueue : List String
  processed : List String
  seen : List String
deriving DecidableEq, Repr

/-- The fresh state built by `NewUdig`. -/
def initState : EngineState :=
  { domainQueue := [], ipQueue := [], processed := [], seen := [] }

/-- `isCnameOrRelated` from the source: a DNS resolution containing a CNAME
record whose target equals the candidate wins outright; otherwise the
relatedness heuristic on `(candidate, resolution.Query())` decides. -/
def isCnameOrRelated (rel : String → String → Bool) (nextDomain : String)
    (r : ResolutionR) : Bool :=
  match r.rtype with
  | ResolutionType.DNS =>
    if r.records.any (fun rr => rr.rrtype == typeCNAME && rr.cnameTarget == nextDomain)
    then true
    else rel nextDomain r.query
  | _ => rel nextDomain r.query

/-- One inspection of a candidate domain inside `getRelatedDomains`: skip it
when processed or seen, otherwise mark it seen and collect it exactly when
`isCnameOrRelated` accepts. -/
def inspectDomain (rel : String → String → Bool) (r : ResolutionR)
    (acc : EngineState × List String) (nextDomain : String) :
    EngineState × List String :=
  if acc.1.processed.contains nextDomain || acc.1.seen.contains nextDomain then acc
  else
    let st' := { acc.1 with seen := nextDomain :: acc.1.seen }
    if ! isCnameOrRelated rel nextDomain r then (st', acc.2)
    else (st', acc.2 ++ [nextDomain])

/-- `getRelatedDomains` from the source: inspect every domain of every
resolution in order. -/
def getRelatedDomains (rel : String → String → Bool) (st : EngineState)
    (resolutions : List ResolutionR) : EngineState × List String :=
  resolutions.foldl (fun acc r => r.domains.foldl (inspectDomain rel r) acc) (st, [])

/-- `enqueueDomains` from the source. -/
def enqueueDomains (st : EngineState) (domains : List String) : EngineState :=
  { st with domainQueue := st.domainQueue ++ domains }

/-- `enqueueIps` from the source. -/
def enqueueIps (st : EngineState) (ips : List String) : EngineState :=
  { st with ipQueue := st.ipQueue ++ ips }

/-- `resolveOneDomain` from the source: skip processed queries, otherwise
mark processed and fan out to the domain resolvers (the probe). -/
def resolveOneDomain (probe : String → List ResolutionR) (st : EngineState)
    (d : String) : EngineState × List ResolutionR :=
  if st.processed.contains d then (st, [])
  else ({ st with processed := d :: st.processed }, probe d)

/-- `resolveOneIP` from the source, analogous to `resolveOneDomain`. -/
def resolveOneIP (probe : String → List ResolutionR) (st : EngineState)
    (ip : String) : EngineState × List ResolutionR :=
  if st.processed.contains ip then (st, [])
  else ({ st with processed := ip :: st.processed }, probe ip)

/-- The `resolveDomains` loop: pop a domain, resolve it, collect the results,
enqueue the related discoveries, repeat until the queue drains (or the fuel
runs out). -/
def resolveDomains (rel : String → String → Bool)
    (probe : String → List ResolutionR) :
    Nat → EngineState → EngineState × List ResolutionR
  | 0, st => (st, [])
  | fuel + 1, st =>
    match hq : st.domainQueue with
    | [] => (st, [])
    | d :: qrest =>
      let st1 := { st with domainQueue := qrest }
      let step2 := resolveOneDomain probe st1 d
      let step3 := getRelatedDomains rel step2.1 step2.2
      let st4 := enqueueDomains step3.1 step3.2
      let step5 := resolveDomains rel probe fuel st4
      (step5.1, step2.2 ++ step5.2)

/-- The `resolveIPs` loop: pop an IP, resolve it, collect, repeat. -/
def resolveIPs (probe : String → List ResolutionR) :
    Nat → EngineState → EngineState × List ResolutionR
  | 0, st => (st, [])
  | fuel + 1, st =>
    match st.ipQueue with
    | [] => (st, [])
    | ip :: qrest =>
      let st1 := { st with ipQueue := qrest }
      let step2 := resolveOneIP probe st1 ip
      let step3 := resolveIPs probe fuel step2.1
      (step3.1, step2.2 ++ step3.2)

/-- The seed enqueue `udig.domainQueue <- domain` at the top of `Resolve`. -/
def seedEnqueue (st : EngineState) (d : String) : EngineState :=
  { st with domainQueue := st.domainQueue ++ [d] }

/-- The domain phase of `Resolve`: seed the queue and drain it. -/
def resolveAfterDomains (rel : String → String → Bool)
    (probeD : String → List ResolutionR) (fuelD : Nat) (st0 : EngineState)
    (seed : String) : EngineState × List ResolutionR :=
  resolveDomains rel probeD fuelD (seedEnqueue st0 seed)

/-- The state in which the IP phase starts: after the domain phase, every
discovered IP of every collected resolution is enqueued. -/
def ipPhaseStart (rel : String → String → Bool)
    (probeD : String → List ResolutionR) (fuelD : Nat) (st0 : EngineState)
    (seed : String) : EngineState :=
  ((resolveAfterDomains rel probeD fuelD st0 seed).2).foldl
    (fun s r => enqueueIps s r.ips)
    (resolveAfterDomains rel probeD fuelD st0 seed).1

/-- `Resolve` from the source: seed, drain the domain queue, enqueue all
discovered IPs, drain the IP queue, and return the domain-phase resolutions
followed by the IP-phase resolutions. -/
def Resolve (rel : String → String → Bool)
    (probeD probeIP : String → List ResolutionR) (fuelD fuelI : Nat)
    (st0 : EngineState) (domain : String) : EngineState × List ResolutionR :=
  ((resolveIPs probeIP fuelI (ipPhaseStart rel probeD fuelD st0 domain)).1,
    (resolveAfterDomains rel probeD fuelD st0 domain).2 ++
      (resolveIPs probeIP fuelI (ipPhaseStart rel probeD fuelD st0 domain)).2)

/-- The sequence of (resolution, candidate-domain) inspections performed by
`getRelatedDomains`, in program order. -/
def inspectionList (rs : List ResolutionR) : List (ResolutionR × String) :=
  rs.flatMap (fun r => r.domains.map (fun d => (r, d)))

/-- `inspectDomain` uncurried over an inspection pair. -/
def inspectPair (rel : String → String → Bool) (acc : EngineState × List String)
    (p : ResolutionR × String) : EngineState × List String :=
  inspectDomain rel p.1 acc p.2

/-- The engine state and collected output after the first `i` inspections. -/
def inspectUpTo (rel : String → String → Bool) (st0 : EngineState)
    (rs : List ResolutionR) (i : Nat) : EngineState × List String :=
  ((inspectionList rs).take i).foldl (inspectPair rel) (st0, [])

theorem getRelatedDomains_eq_foldl_pairs (rel : String → String → Bool)
    (st0 : EngineState) (rs : List ResolutionR) :
    getRelatedDomains rel st0 rs = (inspectionList rs).foldl (inspectPair rel) (st0, []) := by
  rw [getRelatedDomains, inspectionList]
  generalize (st0, ([] : List String)) = acc
  induction rs generalizing acc with
  | nil => rfl
  | cons r rest ih =>
    simp only [List.foldl_cons, List.flatMap_cons, List.foldl_append, List.foldl_map]
    rw [ih]
    rfl

theorem inspectPair_frame (rel : String → String → Bool)
    (acc : EngineState × List String) (p : ResolutionR × String) :
    (inspectPair rel acc p).1.domainQueue = acc.1.domainQueue ∧
    (inspectPair rel acc p).1.ipQueue = acc.1.ipQueue ∧
    (inspectPair rel acc p).1.processed = acc.1.processed := by
  simp only [inspectPair, inspectDomain]
  split
  · exact ⟨rfl, rfl, rfl⟩
  · split
    · exact ⟨rfl, rfl, rfl⟩
    · exact ⟨rfl, rfl, rfl⟩

theorem foldl_inspectPair_frame (rel : String → String → Bool)
    (ps : List (ResolutionR × String)) (acc : EngineState × List String) :
    (ps.foldl (inspectPair rel) acc).1.domainQueue = acc.1.domainQueue ∧
    (ps.foldl (inspectPair rel) acc).1.ipQueue = acc.1.ipQueue ∧
    (ps.foldl (inspectPair rel) acc).1.processed = acc.1.processed := by
  induction ps generalizing acc with
  | nil => exact ⟨rfl, rfl, rfl⟩
  | cons p rest ih =>
    simp only [List.foldl_cons]
    rcases ih (inspectPair rel acc p) with ⟨hq, hip, hpr⟩
    rcases inspectPair_frame rel acc p with ⟨gq, gip, gpr⟩
    exact ⟨hq.trans gq, hip.trans gip, hpr.trans gpr⟩

/-- Claim C1: during one `getRelatedDomains` pass, the candidate inspected
at step `i` is collected (and hence enqueued by `enqueueDomains`) exactly
when, at that moment, it is neither in `processed` nor in `seen` and
`isCnameOrRelated` accepts it; otherwise the collected output is unchanged;
the `processed` set never changes during the pass, and `enqueueDomains`
appends exactly the collected output to the domain queue. -/
theorem c1_enqueue_iff (rel : String → String → Bool) (st0 : EngineState)
    (rs : List ResolutionR) (i : Nat) (hi : i < (inspectionList rs).length)
    (r : ResolutionR) (d : String)
    (hp : (inspectionList rs).get ⟨i, hi⟩ = (r, d)) :
    ((inspectUpTo rel st0 rs (i + 1)).2 = (inspectUpTo rel st0 rs i).2 ++ [d] ↔
      ((inspectUpTo rel st0 rs i).1.processed.contains d = false ∧
       (inspectUpTo rel st0 rs i).1.seen.contains d = false ∧
       isCnameOrRelated rel d r = true)) ∧
    ((inspectUpTo rel st0 rs (i + 1)).2 ≠ (inspectUpTo rel st0 rs i).2 ++ [d] →
      (inspectUpTo rel st0 rs (i + 1)).2 = (inspectUpTo rel st0 rs i).2) ∧
    (inspectUpTo rel st0 rs i).1.processed = st0.processed ∧
    getRelatedDomains rel st0 rs = inspectUpTo rel st0 rs (inspectionList rs).length ∧
    (enqueueDomains (getRelatedDomains rel st0 rs).1
        (getRelatedDomains rel st0 rs).2).domainQueue =
      st0.domainQueue ++ (getRelatedDomains rel st0 rs).2 := by
  have hstep : inspectUpTo rel st0 rs (i + 1) =
      inspectDomain rel r (inspectUpTo rel st0 rs i) d := by
    rw [inspectUpTo, inspectUpTo, List.take_succ]
    rw [List.get_eq_getElem] at hp
    rw [List.getElem?_eq_getElem hi, hp]
    simp only [Option.toList_some, List.foldl_append, List.foldl_cons, List.foldl_nil]
    rfl
  rcases hacc : inspectUpTo rel st0 rs i with ⟨st, out⟩
  have hsplit : inspectUpTo rel st0 rs (i + 1) =
      (if st.processed.contains d || st.seen.contains d then (st, out)
       else if ! isCnameOrRelated rel d r
         then ({ st with seen := d :: st.seen }, out)
         else ({ st with seen := d :: st.seen }, out ++ [d])) := by
    rw [hstep, hacc]
    simp only [inspectDomain]
  refine ⟨?_, ?_, ?_, ?_, ?_⟩
  · rw [hsplit]
    by_cases h1 : st.processed.contains d || st.seen.contains d
    · rw [if_pos h1]
      simp only
      constructor
      · intro h
        exact absurd (congrArg List.length h) (by simp)
      · rintro ⟨hp1, hp2, -⟩
        rw [hp1, hp2] at h1
        simp at h1
    · rw [if_neg h1]
      simp only [Bool.or_eq_true, not_or, Bool.not_eq_true] at h1
      by_cases h2 : isCnameOrRelated rel d r
      · rw [if_neg (by simp [h2])]
        simp only
        exact ⟨fun _ => ⟨h1.1, h1.2, h2⟩, fun _ => trivial⟩
      · rw [if_pos (by simp [Bool.not_eq_true] at h2 ⊢; exact h2)]
        simp only
        constructor
        · intro h
          exact absurd (congrArg List.length h) (by simp)
        · rintro ⟨-, -, hrel⟩
          exact absurd hrel h2
  · rw [hsplit]
    by_cases h1 : st.processed.contains d || st.seen.contains d
    · rw [if_pos h1]
      intro _
      rfl
    · rw [if_neg h1]
      by_cases h2 : ! isCnameOrRelated rel d r
      · rw [if_pos h2]
        intro _
        rfl
      · rw [if_neg h2]
        intro h
        exact absurd rfl h
  · have := (foldl_inspectPair_frame rel ((inspectionList rs).take i) (st0, [])).2.2
    rw [inspectUpTo] at hacc
    rw [hacc] at this
    exact this
  · rw [getRelatedDomains_eq_foldl_pairs, inspectUpTo, List.take_length]
  · have hq := (foldl_inspectPair_frame rel (inspectionList rs) (st0, [])).1
    rw [← getRelatedDomains_eq_foldl_pairs] at hq
    rw [enqueueDomains, hq]

/-- Claim C1 witness: a DNS resolution for `"a.com"` carrying the single
candidate `"b.com"` as a CNAME target is collected at inspection step 0 of a
fresh state. -/
theorem c1_witness :
    (inspectUpTo (fun _ _ => false) initState
        [{ rtype := ResolutionType.DNS, query := "a.com",
           records := [{ rrtype := 5, cnameTarget := "b.com" }],
           domains := ["b.com"], ips := [] }] 1).2 =
      (inspectUpTo (fun _ _ => false) initState
        [{ rtype := ResolutionType.DNS, query := "a.com",
           records := [{ rrtype := 5, cnameTarget := "b.com" }],
           domains := ["b.com"], ips := [] }] 0).2 ++ ["b.com"] ↔
      ((inspectUpTo (fun _ _ => false) initState
          [{ rtype := ResolutionType.DNS, query := "a.com",
             records := [{ rrtype := 5, cnameTarget := "b.com" }],
             domains := ["b.com"], ips := [] }] 0).1.processed.contains "b.com" = false ∧
       (inspectUpTo (fun _ _ => false) initState
          [{ rtype := ResolutionType.DNS, query := "a.com",
             records := [{ rrtype := 5, cnameTarget := "b.com" }],
             domains := ["b.com"], ips := [] }] 0).1.seen.contains "b.com" = false ∧
       isCnameOrRelated (fun _ _ => false) "b.com"
         { rtype := ResolutionType.DNS, query := "a.com",
           records := [{ rrtype := 5, cnameTarget := "b.com" }],
           domains := ["b.com"], ips := [] } = true) :=
  (c1_enqueue_iff (fun _ _ => false) initState
    [{ rtype := ResolutionType.DNS, query := "a.com",
       records := [{ rrtype := 5, cnameTarget := "b.com" }],
       domains := ["b.com"], ips := [] }] 0 (by decide)
    { rtype := ResolutionType.DNS, query := "a.com",
      records := [{ rrtype := 5, cnameTarget := "b.com" }],
      domains := ["b.com"], ips := [] } "b.com" (by decide)).1

theorem inspectPair_seen_mono (rel : String → String → Bool)
    (acc : EngineState × List String) (p : ResolutionR × String) :
    acc.1.seen ⊆ (inspectPair rel acc p).1.seen := by
  simp only [inspectPair, inspectDomain]
  split
  · exact fun x hx => hx
  · split
    · exact fun x hx => List.mem_cons_of_mem _ hx
    · exact fun x hx => List.mem_cons_of_mem _ hx

theorem foldl_inspectPair_seen_mono (rel : String → String → Bool)
    (ps : List (ResolutionR × String)) (acc : EngineState × List String) :
    acc.1.seen ⊆ (ps.foldl (inspectPair rel) acc).1.seen := by
  induction ps generalizing acc with
  | nil => exact fun x hx => hx
  | cons p rest ih =>
    exact fun x hx => ih (inspectPair rel acc p) (inspectPair_seen_mono rel acc p hx)

theorem foldl_inspectPair_out_seen (rel : String → String → Bool)
    (ps : List (ResolutionR × String)) (acc : EngineState × List String)
    (hout : ∀ d ∈ acc.2, d ∈ acc.1.seen) :
    ∀ d ∈ (ps.foldl (inspectPair rel) acc).2, d ∈ (ps.foldl (inspectPair rel) acc).1.seen := by
  induction ps generalizing acc with
  | nil => exact hout
  | cons p rest ih =>
    refine ih (inspectPair rel acc p) ?_
    intro d hd
    simp only [inspectPair, inspectDomain] at hd ⊢
    by_cases h1 : acc.1.processed.contains p.2 || acc.1.seen.contains p.2
    · rw [if_pos h1] at hd ⊢
      exact hout d hd
    · rw [if_neg h1] at hd ⊢
      by_cases h2 : (! isCnameOrRelated rel p.2 p.1) = true
      · rw [if_pos h2] at hd ⊢
        exact List.mem_cons_of_mem _ (hout d hd)
      · rw [if_neg h2] at hd ⊢
        rcases List.mem_append.mp hd with hd | hd
        · exact List.mem_cons_of_mem _ (hout d hd)
        · rw [List.mem_singleton.mp hd]
          exact List.mem_cons_self _ _

theorem getRelatedDomains_out_seen (rel : String → String → Bool)
    (st : EngineState) (rs : List ResolutionR) :
    ∀ d ∈ (getRelatedDomains rel st rs).2, d ∈ (getRelatedDomains rel st rs).1.seen := by
  rw [getRelatedDomains_eq_foldl_pairs]
  exact foldl_inspectPair_out_seen rel (inspectionList rs) (st, []) (by simp)

theorem getRelatedDomains_seen_mono (rel : String → String → Bool)
    (st : EngineState) (rs : List ResolutionR) :
    st.seen ⊆ (getRelatedDomains rel st rs).1.seen := by
  rw [getRelatedDomains_eq_foldl_pairs]
  exact foldl_inspectPair_seen_mono rel (inspectionList rs) (st, [])

theorem resolveOneDomain_seen (probe : String → List ResolutionR)
    (st : EngineState) (d : String) :
    (resolveOneDomain probe st d).1.seen = st.seen := by
  simp only [resolveOneDomain]
  split <;> rfl

theorem resolveDomains_seen_mono (rel : String → String → Bool)
    (probe : String → List ResolutionR) :
    ∀ (fuel : Nat) (st : EngineState),
      st.seen ⊆ (resolveDomains rel probe fuel st).1.seen := by
  intro fuel
  induction fuel with
  | zero => exact fun st x hx => hx
  | succ fuel ih =>
    intro st x hx
    simp only [resolveDomains]
    rcases hq : st.domainQueue with _ | ⟨d, qrest⟩
    · exact hx
    · simp only
      refine ih _ ?_
      refine getRelatedDomains_seen_mono rel _ _ ?_
      rw [resolveOneDomain_seen]
      exact hx

theorem enqueueIps_foldl_frame (rs : List ResolutionR) :
    ∀ st : EngineState,
      (rs.foldl (fun s r => enqueueIps s r.ips) st).seen = st.seen ∧
      (rs.foldl (fun s r => enqueueIps s r.ips) st).domainQueue = st.domainQueue := by
  induction rs with
  | nil => exact fun st => ⟨rfl, rfl⟩
  | cons r rest ih =>
    intro st
    rcases ih (enqueueIps st r.ips) with ⟨h1, h2⟩
    exact ⟨h1, h2⟩

theorem resolveIPs_frame (probe : String → List ResolutionR) :
    ∀ (fuel : Nat) (st : EngineState),
      (resolveIPs probe fuel st).1.seen = st.seen ∧
      (resolveIPs probe fuel st).1.domainQueue = st.domainQueue := by
  intro fuel
  induction fuel with
  | zero => exact fun st => ⟨rfl, rfl⟩
  | succ fuel ih =>
    intro st
    simp only [resolveIPs]
    rcases hq : st.ipQueue with _ | ⟨ip, qrest⟩
    · exact ⟨rfl, rfl⟩
    · simp only
      have hone : (resolveOneIP probe { st with ipQueue := qrest } ip).1.seen = st.seen ∧
          (resolveOneIP probe { st with ipQueue := qrest } ip).1.domainQueue =
            st.domainQueue := by
        simp only [resolveOneIP]
        split <;> exact ⟨rfl, rfl⟩
      rcases ih (resolveOneIP probe { st with ipQueue := qrest } ip).1 with ⟨h1, h2⟩
      exact ⟨h1.trans hone.1, h2.trans hone.2⟩

theorem inspectPair_not_seen_of_processed (rel : String → String → Bool)
    (acc : EngineState × List String) (p : ResolutionR × String) (x : String)
    (hproc : acc.1.processed.contains x = true) (hseen : x ∉ acc.1.seen) :
    x ∉ (inspectPair rel acc p).1.seen := by
  simp only [inspectPair, inspectDomain]
  split
  · exact hseen
  · rename_i h
    have hne : p.2 ≠ x := by
      intro he
      rw [he] at h
      simp at h
      exact h.1 (by simpa using hproc)
    split
    · intro hmem
      rcases List.mem_cons.mp hmem with hmem | hmem
      · exact hne hmem.symm
      · exact hseen hmem
    · intro hmem
      rcases List.mem_cons.mp hmem with hmem | hmem
      · exact hne hmem.symm
      · exact hseen hmem

theorem foldl_inspectPair_not_seen_of_processed (rel : String → String → Bool)
    (ps : List (ResolutionR × String)) :
    ∀ (acc : EngineState × List String) (x : String),
      acc.1.processed.contains x = true → x ∉ acc.1.seen →
      x ∉ (ps.foldl (inspectPair rel) acc).1.seen := by
  induction ps with
  | nil => exact fun acc x _ hseen => hseen
  | cons p rest ih =>
    intro acc x hproc hseen
    refine ih (inspectPair rel acc p) x ?_ ?_
    · rw [(inspectPair_frame rel acc p).2.2]
      exact hproc
    · exact inspectPair_not_seen_of_processed rel acc p x hproc hseen

theorem getRelatedDomains_not_seen_of_processed (rel : String → String → Bool)
    (st : EngineState) (rs : List ResolutionR) (x : String)
    (hproc : st.processed.contains x = true) (hseen : x ∉ st.seen) :
    x ∉ (getRelatedDomains rel st rs).1.seen := by
  rw [getRelatedDomains_eq_foldl_pairs]
  exact foldl_inspectPair_not_seen_of_processed rel (inspectionList rs) (st, []) x hproc hseen

theorem getRelatedDomains_processed (rel : String → String → Bool)
    (st : EngineState) (rs : List ResolutionR) :
    (getRelatedDomains rel st rs).1.processed = st.processed := by
  rw [getRelatedDomains_eq_foldl_pairs]
  exact (foldl_inspectPair_frame rel (inspectionList rs) (st, [])).2.2

theorem resolveOneDomain_processed_mono (probe : String → List ResolutionR)
    (st : EngineState) (d x : String)
    (hproc : st.processed.contains x = true) :
    (resolveOneDomain probe st d).1.processed.contains x = true := by
  simp only [resolveOneDomain]
  split
  · exact hproc
  · simp [List.contains_cons]
    exact Or.inr (by simpa using hproc)

theorem resolveOneDomain_processed_self (probe : String → List ResolutionR)
    (st : EngineState) (d : String) :
    (resolveOneDomain probe st d).1.processed.contains d = true := by
  simp only [resolveOneDomain]
  split
  · assumption
  · simp [List.contains_cons]

theorem resolveDomains_not_seen_invariant (rel : String → String → Bool)
    (probe : String → List ResolutionR) :
    ∀ (fuel : Nat) (st : EngineState) (x : String),
      st.processed.contains x = true → x ∉ st.seen →
      (resolveDomains rel probe fuel st).1.processed.contains x = true ∧
      x ∉ (resolveDomains rel probe fuel st).1.seen := by
  intro fuel
  induction fuel with
  | zero => exact fun st x hp hs => ⟨hp, hs⟩
  | succ fuel ih =>
    intro st x hp hs
    simp only [resolveDomains]
    rcases hq : st.domainQueue with _ | ⟨d, qrest⟩
    · exact ⟨hp, hs⟩
    · simp only
      have hp2 : (resolveOneDomain probe { st with domainQueue := qrest } d).1.processed.contains
          x = true := resolveOneDomain_processed_mono probe _ d x hp
      have hs2 : x ∉ (resolveOneDomain probe { st with domainQueue := qrest } d).1.seen := by
        rw [resolveOneDomain_seen]
        exact hs
      have hp3 : ((getRelatedDomains rel
          (resolveOneDomain probe { st with domainQueue := qrest } d).1
          (resolveOneDomain probe { st with domainQueue := qrest } d).2).1).processed.contains
          x = true := by
        rw [getRelatedDomains_processed]
        exact hp2
      have hs3 := getRelatedDomains_not_seen_of_processed rel
        (resolveOneDomain probe { st with domainQueue := qrest } d).1
        (resolveOneDomain probe { st with domainQueue := qrest } d).2 x hp2 hs2
      exact ih _ x hp3 hs3

theorem resolveDomains_seed_not_seen (rel : String → String → Bool)
    (probe : String → List ResolutionR) (fuel : Nat) (st0 : EngineState)
    (seed : String) (hq0 : st0.domainQueue = []) (hs0 : seed ∉ st0.seen) :
    seed ∉ (resolveDomains rel probe fuel (seedEnqueue st0 seed)).1.seen := by
  cases fuel with
  | zero => exact hs0
  | succ fuel =>
    have hq1 : (seedEnqueue st0 seed).domainQueue = [seed] := by
      simp [seedEnqueue, hq0]
    simp only [resolveDomains]
    split
    · exact hs0
    · rename_i d qrest heq
      rw [hq1] at heq
      injection heq with hd ht
      subst hd
      subst ht
      have hp2 := resolveOneDomain_processed_self probe
        { seedEnqueue st0 seed with domainQueue := [] } seed
      have hs2 : seed ∉ (resolveOneDomain probe
          { seedEnqueue st0 seed with domainQueue := [] } seed).1.seen := by
        rw [resolveOneDomain_seen]
        exact hs0
      have hp3 : ((getRelatedDomains rel
          (resolveOneDomain probe { seedEnqueue st0 seed with domainQueue := [] } seed).1
          (resolveOneDomain probe { seedEnqueue st0 seed with domainQueue := [] } seed).2).1).processed.contains
          seed = true := by
        rw [getRelatedDomains_processed]
        exact hp2
      have hs3 := getRelatedDomains_not_seen_of_processed rel
        (resolveOneDomain probe { seedEnqueue st0 seed with domainQueue := [] } seed).1
        (resolveOneDomain probe { seedEnqueue st0 seed with domainQueue := [] } seed).2
        seed hp2 hs2
      refine (resolveDomains_not_seen_invariant rel probe fuel _ seed ?_ ?_).2
      · exact hp3
      · exact hs3


/-- Claim C2, counterexample: the seed passed to `Resolve` is pushed on the
domain queue without being marked in `seen`; after a full crawl of a seed
whose resolutions carry no domains, `seen` is still empty even though the
seed was enqueued. -/
theorem c2_counterexample :
    "a" ∈ (seedEnqueue initState "a").domainQueue ∧
    "a" ∉ (seedEnqueue initState "a").seen ∧
    (Resolve (fun a b => isDomainRelated a.data b.data false)
      (fun d => [{ rtype := ResolutionType.DNS, query := d, records := [],
                   domains := [], ips := [] }])
      (fun ip => [{ rtype := ResolutionType.BGP, query := ip, records := [],
                    domains := [], ips := [] }])
      2 2 initState "a").1.seen = [] := by
  refine ⟨by decide, by decide, ?_⟩
  decide

/-- Claim C2 (amended): every domain enqueued through the discovery path —
`enqueueDomains` applied to the output of `getRelatedDomains` — is in `seen`
at the moment of its enqueue, and `seen` only grows for the rest of the
crawl; the seed passed to `Resolve`, however, is enqueued without being
marked in `seen`, and — starting from a session state with an empty domain
queue in which the seed is not yet seen — it is never in the `seen` set at
any later point of the crawl (it is marked processed before its resolutions
are inspected, and processed domains are never added to `seen`). -/
theorem c2_seen_on_enqueue :
    (∀ (rel : String → String → Bool) (st : EngineState) (rs : List ResolutionR),
      ∀ d ∈ (getRelatedDomains rel st rs).2, d ∈ (getRelatedDomains rel st rs).1.seen) ∧
    (∀ (rel : String → String → Bool) (probe : String → List ResolutionR)
        (fuel : Nat) (st : EngineState),
      st.seen ⊆ (resolveDomains rel probe fuel st).1.seen) ∧
    (∀ (rel : String → String → Bool) (probeD probeIP : String → List ResolutionR)
        (fuelD fuelI : Nat) (st0 : EngineState) (seed : String),
      (seedEnqueue st0 seed).seen = st0.seen ∧
      st0.seen ⊆ (Resolve rel probeD probeIP fuelD fuelI st0 seed).1.seen) ∧
    (∀ (rel : String → String → Bool) (probeD probeIP : String → List ResolutionR)
        (fuelD fuelI : Nat) (st0 : EngineState) (seed : String),
      st0.domainQueue = [] → seed ∉ st0.seen →
      seed ∉ (Resolve rel probeD probeIP fuelD fuelI st0 seed).1.seen) := by
  refine ⟨getRelatedDomains_out_seen, resolveDomains_seen_mono, ?_, ?_⟩
  · intro rel probeD probeIP fuelD fuelI st0 seed
    refine ⟨rfl, ?_⟩
    intro x hx
    show x ∈ (resolveIPs probeIP fuelI (ipPhaseStart rel probeD fuelD st0 seed)).1.seen
    rw [(resolveIPs_frame probeIP fuelI _).1, ipPhaseStart,
      (enqueueIps_foldl_frame _ _).1]
    exact resolveDomains_seen_mono rel probeD fuelD (seedEnqueue st0 seed) hx
  · intro rel probeD probeIP fuelD fuelI st0 seed hq0 hs0
    show seed ∉ (resolveIPs probeIP fuelI (ipPhaseStart rel probeD fuelD st0 seed)).1.seen
    rw [(resolveIPs_frame probeIP fuelI _).1, ipPhaseStart,
      (enqueueIps_foldl_frame _ _).1]
    exact resolveDomains_seed_not_seen rel probeD fuelD st0 seed hq0 hs0

/-- Claim C2 witness: a discovered CNAME target is in `seen` the moment it is
collected for enqueueing, and the seed of a concrete full crawl from the
fresh state never enters `seen`. -/
theorem c2_witness :
    (∀ d ∈ (getRelatedDomains (fun _ _ => true) initState
        [{ rtype := ResolutionType.DNS, query := "a.com",
           records := [{ rrtype := 5, cnameTarget := "b.com" }],
           domains := ["b.com"], ips := [] }]).2,
      d ∈ (getRelatedDomains (fun _ _ => true) initState
        [{ rtype := ResolutionType.DNS, query := "a.com",
           records := [{ rrtype := 5, cnameTarget := "b.com" }],
           domains := ["b.com"], ips := [] }]).1.seen) ∧
    "a" ∉ (Resolve (fun _ _ => true)
      (fun d => [{ rtype := ResolutionType.DNS, query := d, records := [],
                   domains := ["b.com"], ips := [] }])
      (fun ip => [{ rtype := ResolutionType.BGP, query := ip, records := [],
                    domains := [], ips := [] }])
      3 3 initState "a").1.seen :=
  ⟨c2_seen_on_enqueue.1 (fun _ _ => true) initState
    [{ rtype := ResolutionType.DNS, query := "a.com",
       records := [{ rrtype := 5, cnameTarget := "b.com" }],
       domains := ["b.com"], ips := [] }],
   c2_seen_on_enqueue.2.2.2 (fun _ _ => true)
    (fun d => [{ rtype := ResolutionType.DNS, query := d, records := [],
                 domains := ["b.com"], ips := [] }])
    (fun ip => [{ rtype := ResolutionType.BGP, query := ip, records := [],
                  domains := [], ips := [] }])
    3 3 initState "a" rfl (by decide)⟩

theorem resolveDomains_output_from_probe (rel : String → String → Bool)
    (probe : String → List ResolutionR) :
    ∀ (fuel : Nat) (st : EngineState) (r : ResolutionR),
      r ∈ (resolveDomains rel probe fuel st).2 → ∃ d, r ∈ probe d := by
  intro fuel
  induction fuel with
  | zero =>
    intro st r hr
    exact absurd hr (List.not_mem_nil r)
  | succ fuel ih =>
    intro st r hr
    simp only [resolveDomains] at hr
    rcases hq : st.domainQueue with _ | ⟨d, qrest⟩
    · rw [hq] at hr
      exact absurd hr (List.not_mem_nil r)
    · rw [hq] at hr
      simp only at hr
      rcases List.mem_append.mp hr with hr | hr
      · simp only [resolveOneDomain] at hr
        by_cases hp : ({ st with domainQueue := qrest } : EngineState).processed.contains d
        · rw [if_pos hp] at hr
          exact absurd hr (List.not_mem_nil r)
        · rw [if_neg hp] at hr
          exact ⟨d, hr⟩
      · exact ih _ r hr

theorem resolveIPs_output_from_probe (probe : String → List ResolutionR) :
    ∀ (fuel : Nat) (st : EngineState) (r : ResolutionR),
      r ∈ (resolveIPs probe fuel st).2 → ∃ ip, r ∈ probe ip := by
  intro fuel
  induction fuel with
  | zero =>
    intro st r hr
    exact absurd hr (List.not_mem_nil r)
  | succ fuel ih =>
    intro st r hr
    simp only [resolveIPs] at hr
    rcases hq : st.ipQueue with _ | ⟨ip, qrest⟩
    · rw [hq] at hr
      exact absurd hr (List.not_mem_nil r)
    · rw [hq] at hr
      simp only at hr
      rcases List.mem_append.mp hr with hr | hr
      · simp only [resolveOneIP] at hr
        by_cases hp : ({ st with ipQueue := qrest } : EngineState).processed.contains ip
        · rw [if_pos hp] at hr
          exact absurd hr (List.not_mem_nil r)
        · rw [if_neg hp] at hr
          exact ⟨ip, hr⟩
      · exact ih _ r hr

/-- Claim C10: within one `Resolve` call the domain queue is fully drained
and all domain-prober resolutions collected before any IP resolver runs: the
returned list is the domain-phase resolutions followed by the IP-phase
resolutions (so, under the default registration, every DNS/WHOIS/TLS/HTTP
resolution precedes every BGP/GEO resolution), and the state in which the IP
phase starts — and ends — has an empty domain queue. -/
theorem c10_domains_before_ips (rel : String → String → Bool)
    (probeD probeIP : String → List ResolutionR) (fuelD fuelI : Nat)
    (st0 : EngineState) (seed : String)
    (hD : ∀ (d : String), ∀ r ∈ probeD d,
      r.rtype = ResolutionType.DNS ∨ r.rtype = ResolutionType.WHOIS ∨
      r.rtype = ResolutionType.TLS ∨ r.rtype = ResolutionType.HTTP)
    (hI : ∀ (ip : String), ∀ r ∈ probeIP ip,
      r.rtype = ResolutionType.BGP ∨ r.rtype = ResolutionType.GEO)
    (hdrain : (resolveAfterDomains rel probeD fuelD st0 seed).1.domainQueue = []) :
    (Resolve rel probeD probeIP fuelD fuelI st0 seed).2 =
      (resolveAfterDomains rel probeD fuelD st0 seed).2 ++
        (resolveIPs probeIP fuelI (ipPhaseStart rel probeD fuelD st0 seed)).2 ∧
    (∀ r ∈ (resolveAfterDomains rel probeD fuelD st0 seed).2,
      r.rtype = ResolutionType.DNS ∨ r.rtype = ResolutionType.WHOIS ∨
      r.rtype = ResolutionType.TLS ∨ r.rtype = ResolutionType.HTTP) ∧
    (∀ r ∈ (resolveIPs probeIP fuelI (ipPhaseStart rel probeD fuelD st0 seed)).2,
      r.rtype = ResolutionType.BGP ∨ r.rtype = ResolutionType.GEO) ∧
    (ipPhaseStart rel probeD fuelD st0 seed).domainQueue = [] ∧
    (Resolve rel probeD probeIP fuelD fuelI st0 seed).1.domainQueue = [] := by
  have hstart : (ipPhaseStart rel probeD fuelD st0 seed).domainQueue = [] := by
    rw [ipPhaseStart, (enqueueIps_foldl_frame _ _).2]
    exact hdrain
  refine ⟨rfl, ?_, ?_, hstart, ?_⟩
  · intro r hr
    obtain ⟨d, hd⟩ :=
      resolveDomains_output_from_probe rel probeD fuelD (seedEnqueue st0 seed) r hr
    exact hD d r hd
  · intro r hr
    obtain ⟨ip, hip⟩ := resolveIPs_output_from_probe probeIP fuelI _ r hr
    exact hI ip r hip
  · show (resolveIPs probeIP fuelI (ipPhaseStart rel probeD fuelD st0 seed)).1.domainQueue = []
    rw [(resolveIPs_frame probeIP fuelI _).2]
    exact hstart

/-- Claim C10 witness: with a DNS-typed domain probe discovering one IP and a
BGP-typed IP probe, the resolutions of a crawl of `"a"` split into the
domain-phase list followed by the IP-phase list. -/
theorem c10_witness :
    (Resolve (fun _ _ => false)
        (fun d => [{ rtype := ResolutionType.DNS, query := d, records := [],
                     domains := [], ips := ["9.9.9.9"] }])
        (fun ip => [{ rtype := ResolutionType.BGP, query := ip, records := [],
                      domains := [], ips := [] }])
        2 2 initState "a").2 =
      (resolveAfterDomains (fun _ _ => false)
        (fun d => [{ rtype := ResolutionType.DNS, query := d, records := [],
                     domains := [], ips := ["9.9.9.9"] }]) 2 initState "a").2 ++
        (resolveIPs
          (fun ip => [{ rtype := ResolutionType.BGP, query := ip, records := [],
                        domains := [], ips := [] }]) 2
          (ipPhaseStart (fun _ _ => false)
            (fun d => [{ rtype := ResolutionType.DNS, query := d, records := [],
                         domains := [], ips := ["9.9.9.9"] }]) 2 initState "a")).2 :=
  (c10_domains_before_ips (fun _ _ => false)
    (fun d => [{ rtype := ResolutionType.DNS, query := d, records := [],
                 domains := [], ips := ["9.9.9.9"] }])
    (fun ip => [{ rtype := ResolutionType.BGP, query := ip, records := [],
                  domains := [], ips := [] }])
    2 2 initState "a"
    (by
      intro d r hr
      rw [List.mem_singleton] at hr
      rw [hr]
      exact Or.inl rfl)
    (by
      intro ip r hr
      rw [List.mem_singleton] at hr
      rw [hr]
      exact Or.inl rfl)
    (by decide)).1

/-! ### HTTP prober with well-known files

The HTTP prober exercised by `http_test.go` reads `SecurityTxtDomains` and
`RobotsTxtDomains` fields and a de-duplicating `Domains()`; the checked-in
`http.go`/`api.go` are an older revision without them, so the well-known-file
behavior is modelled from the spec.  The network is a function from URL to
response, and the regex domain extractor is a parameter. -/

/-- One retained header: name and values. -/
structure HTTPHeader where
  name : String
  values : List String
deriving DecidableEq, Repr

/-- Modelled from the spec: the `HTTPResolution` carrying the retained
headers plus the two domain lists extracted from the `security.txt` and
`robots.txt` bodies (the fields `http_test.go` reads, missing from the
checked-in `api.go`). -/
structure HTTPResolution where
  query : String
  headers : List HTTPHeader
  securityTxtDomains : List String
  robotsTxtDomains : List String
deriving DecidableEq, Repr

/-- An HTTP response as the prober consumes it. -/
structure HTTPResponse where
  status : Nat
  headers : List (String × List String)
  body : List Char

/-- Header lookup by (canonical) name; absent headers give the empty slice. -/
def lookupHeader (hs : List (String × List String)) (name : String) : List String :=
  match hs with
  | [] => []
  | kv :: rest => if kv.1 = name then kv.2 else lookupHeader rest name

/-- 256 KiB, the body read cap. -/
def bodyCap : Nat := 262144

/-- Order-preserving de-duplication. -/
def dedupStrings (l : List String) : List String :=
  l.foldl (fun acc d => if acc.contains d then acc else acc ++ [d]) []

/-- Modelled from the spec: `ResolveDomain` of the HTTP prober (missing from
the checked-in `http.go`): GET `https://<d>` and retain the headers of
interest whose values contain at least one extractable domain, then GET
`https://<d>/.well-known/security.txt` and `https://<d>/robots.txt`, read at
most 256 KiB of body and only when the status is 200, and run the extractor
over each body into two separate lists. -/
def httpResolveDomain (extract : List Char → List String)
    (net : String → HTTPResponse) (headerNames : List String) (d : String) :
    HTTPResolution :=
  let resp := net ("https://" ++ d)
  let headers := headerNames.filterMap (fun name =>
    let vals := lookupHeader resp.headers name
    if vals.flatMap (fun v => extract v.data) ≠ [] then
      some { name := name, values := vals }
    else none)
  let secResp := net ("https://" ++ d ++ "/.well-known/security.txt")
  let sec := if secResp.status = 200 then extract (secResp.body.take bodyCap) else []
  let robResp := net ("https://" ++ d ++ "/robots.txt")
  let rob := if robResp.status = 200 then extract (robResp.body.take bodyCap) else []
  { query := d, headers := headers, securityTxtDomains := sec,
    robotsTxtDomains := rob }

/-- Modelled from the spec: `Domains()` of the `HTTPResolution` (missing from
the checked-in `http.go`): the de-duplicated union of the header-derived,
security.txt-derived and robots.txt-derived domains. -/
def httpDomains (extract : List Char → List String) (r : HTTPResolution) :
    List String :=
  dedupStrings ((r.headers.flatMap (fun h => h.values.flatMap (fun v => extract v.data))) ++
    r.securityTxtDomains ++ r.robotsTxtDomains)

theorem dedup_foldl_mem (l : List String) :
    ∀ (acc : List String) (x : String),
      x ∈ l.foldl (fun acc d => if acc.contains d then acc else acc ++ [d]) acc ↔
        x ∈ acc ∨ x ∈ l := by
  induction l with
  | nil => simp
  | cons d rest ih =>
    intro acc x
    simp only [List.foldl_cons]
    by_cases h : acc.contains d
    · rw [if_pos h, ih]
      constructor
      · rintro (hx | hx)
        · exact Or.inl hx
        · exact Or.inr (List.mem_cons_of_mem d hx)
      · rintro (hx | hx)
        · exact Or.inl hx
        · rcases List.mem_cons.mp hx with rfl | hx
          · exact Or.inl (by simpa using h)
          · exact Or.inr hx
    · rw [if_neg h, ih]
      constructor
      · rintro (hx | hx)
        · rcases List.mem_append.mp hx with hx | hx
          · exact Or.inl hx
          · rw [List.mem_singleton.mp hx]
            exact Or.inr (List.mem_cons_self d rest)
        · exact Or.inr (List.mem_cons_of_mem d hx)
      · rintro (hx | hx)
        · exact Or.inl (List.mem_append.mpr (Or.inl hx))
        · rcases List.mem_cons.mp hx with rfl | hx
          · exact Or.inl (List.mem_append.mpr (Or.inr (List.mem_singleton.mpr rfl)))
          · exact Or.inr hx

theorem dedup_foldl_nodup (l : List String) :
    ∀ acc : List String, acc.Nodup →
      (l.foldl (fun acc d => if acc.contains d then acc else acc ++ [d]) acc).Nodup := by
  induction l with
  | nil => exact fun acc h => h
  | cons d rest ih =>
    intro acc hacc
    simp only [List.foldl_cons]
    by_cases h : acc.contains d
    · rw [if_pos h]
      exact ih acc hacc
    · rw [if_neg h]
      refine ih _ ?_
      rw [List.nodup_append]
      refine ⟨hacc, List.nodup_singleton d, ?_⟩
      intro x hx
      rw [List.mem_singleton]
      intro hxd
      rw [hxd] at hx
      exact absurd hx (by simpa using h)

theorem mem_dedupStrings (l : List String) (x : String) :
    x ∈ dedupStrings l ↔ x ∈ l := by
  rw [dedupStrings, dedup_foldl_mem]
  simp

theorem dedupStrings_nodup (l : List String) : (dedupStrings l).Nodup :=
  dedup_foldl_nodup l [] List.nodup_nil

/-- Claim C8: the HTTP prober retains only interesting headers of
`GET https://<d>` (those whose values contain at least one extractable
domain), also GETs `https://<d>/.well-known/security.txt` and
`https://<d>/robots.txt`, reads at most 256 KiB of each body and only when
the status is 200, extracts domains from the two bodies into the two
separate lists stored on the resolution, and `Domains()` is the
de-duplicated union of the header-derived, security.txt-derived and
robots.txt-derived domains. -/
theorem c8_http_wellknown (extract : List Char → List String)
    (net : String → HTTPResponse) (headerNames : List String) (d : String) :
    (∀ h ∈ (httpResolveDomain extract net headerNames d).headers,
      h.values.flatMap (fun v => extract v.data) ≠ [] ∧
      h.values = lookupHeader (net ("https://" ++ d)).headers h.name) ∧
    (httpResolveDomain extract net headerNames d).securityTxtDomains =
      (if (net ("https://" ++ d ++ "/.well-known/security.txt")).status = 200
       then extract ((net ("https://" ++ d ++ "/.well-known/security.txt")).body.take 262144)
       else []) ∧
    (httpResolveDomain extract net headerNames d).robotsTxtDomains =
      (if (net ("https://" ++ d ++ "/robots.txt")).status = 200
       then extract ((net ("https://" ++ d ++ "/robots.txt")).body.take 262144)
       else []) ∧
    (httpDomains extract (httpResolveDomain extract net headerNames d)).Nodup ∧
    (∀ x, x ∈ httpDomains extract (httpResolveDomain extract net headerNames d) ↔
      (x ∈ (httpResolveDomain extract net headerNames d).headers.flatMap
          (fun h => h.values.flatMap (fun v => extract v.data)) ∨
       x ∈ (httpResolveDomain extract net headerNames d).securityTxtDomains ∨
       x ∈ (httpResolveDomain extract net headerNames d).robotsTxtDomains)) := by
  refine ⟨?_, rfl, rfl, dedupStrings_nodup _, ?_⟩
  · intro h hh
    simp only [httpResolveDomain, List.mem_filterMap] at hh
    rcases hh with ⟨name, -, hname⟩
    by_cases hc : (lookupHeader (net ("https://" ++ d)).headers name).flatMap
        (fun v => extract v.data) ≠ []
    · rw [if_pos hc] at hname
      cases Option.some.inj hname
      exact ⟨hc, rfl⟩
    · rw [if_neg hc] at hname
      exact absurd hname (by simp)
  · intro x
    rw [httpDomains, mem_dedupStrings]
    simp [or_assoc]

/-- Claim C8 witness: the resolution laws at a network serving a 200
`security.txt` body, with a one-domain extractor. -/
theorem c8_witness :
    (httpDomains (fun s => if s = [] then [] else ["vendor.com"])
      (httpResolveDomain (fun s => if s = [] then [] else ["vendor.com"])
        (fun _ => { status := 200, headers := [], body := "Contact: x".data })
        ["alt-svc"] "example.com")).Nodup :=
  (c8_http_wellknown (fun s => if s = [] then [] else ["vendor.com"])
    (fun _ => { status := 200, headers := [], body := "Contact: x".data })
    ["alt-svc"] "example.com").2.2.2.1
